import Mathlib

/-!
Verification development for the erdtree-2.0 core: the traversal consumer,
tree assembly, pruning, and rendering pipeline of `src/render/tree/mod.rs`,
together with the digit-count helper of `src/utils.rs`.

The Rust code is shallowly embedded: the arena (`indextree::Arena<Node>`)
becomes a list of slots addressed by index, the `HashMap<PathBuf, Vec<NodeId>>`
pending-children index becomes an association list with unique keys, the
`HashSet` of inode properties becomes a list used as a set, and the fallible
consumer loop returns `Except`.  Rust panics (`unwrap` on `None`) are modelled
as `Option.none` results.  Path components are abstracted to numeric labels:
the source only ever compares paths for equality and takes `Path::parent`,
which for the canonicalized absolute paths produced by the walker is exactly
`List.dropLast` on the component list.
-/

set_option maxHeartbeats 1000000

namespace Erdtree

/-- A filesystem path, abstracted as its list of components (the root `/` is
`[]`).  The source only uses equality of `PathBuf`s (as `HashMap` keys) and
`Path::parent`, so the component structure is all that matters. -/
abbrev FsPath := List Nat

/-- Modelled from the spec: inode identity `(device, inode, link-count)` kept
by `Node` (`node.rs` is not part of the provided sources); used only by the
hard-link dedup in `Tree::traverse`. -/
structure Inode where
  dev : Nat
  ino : Nat
  nlink : Nat
  deriving DecidableEq

/-- The `properties` projection of an inode: the `(device, inode)` pair that
is inserted into the inode-seen set. -/
def Inode.properties (i : Inode) : Nat × Nat := (i.dev, i.ino)

/-- Kind of a filesystem entry: directory, regular file, or symlink. -/
inductive NodeKind where
  | dir
  | file
  | symlink
  deriving DecidableEq

/-- Modelled from the spec: the `Node` payload stored in the arena (`node.rs`
is not part of the provided sources).  It wraps the discovered entry's path,
depth, kind and inode, plus the optional size in bytes: per the spec, a size
is recorded for files only, and a directory's slot is later overwritten by
`set_file_size` during assembly. -/
structure Node where
  path : FsPath
  depth : Nat
  kind : NodeKind
  file_size : Option Nat
  inode : Option Inode
  deriving DecidableEq

instance : Inhabited Node := ⟨⟨[], 0, NodeKind.file, none, none⟩⟩

/-- `Node::is_dir`. -/
def Node.is_dir (n : Node) : Bool := n.kind = NodeKind.dir

/-- `Node::is_symlink`. -/
def Node.is_symlink (n : Node) : Bool := n.kind = NodeKind.symlink

/-- Modelled from the spec: `Node::parent_path`, i.e. `Path::parent` on the
node's canonicalized absolute path: `None` exactly for the filesystem root. -/
def Node.parent_path (n : Node) : Option FsPath :=
  if n.path = [] then none else some n.path.dropLast

/-- A walker-discovered entry, the payload of a `TraversalState::Ongoing`
message.  Modelled from the spec: path, depth (root = 0), kind, file size in
bytes (meaningful for files only), optional inode identity. -/
structure Entry where
  path : FsPath
  depth : Nat
  kind : NodeKind
  size : Nat
  inode : Option Inode
  deriving DecidableEq

/-- Modelled from the spec: construction of a `Node` from a discovered entry
(`node.rs` is not part of the provided sources).  A file size is recorded for
files only; directories and symlinks start with no size. -/
def Node.ofEntry (e : Entry) : Node :=
  ⟨e.path, e.depth, e.kind, if e.kind = NodeKind.file then some e.size else none, e.inode⟩

/-- One slot of the arena: the `indextree` node, i.e. the `Node` payload plus
the child links (as an ordered list of child identifiers, established by
`NodeId::append`) and the removal flag set by `remove_subtree`. -/
structure Slot where
  data : Node
  kids : List Nat
  removed : Bool
  deriving DecidableEq

/-- The arena of `indextree::Arena<Node>`: slots addressed by index. -/
structure Arena where
  slots : List Slot
  deriving DecidableEq

/-- The default slot returned for an out-of-range identifier; its payload is
a file-kind node so that out-of-range identifiers are never directories. -/
def defaultSlot : Slot := ⟨⟨[], 0, NodeKind.file, none, none⟩, [], false⟩

/-- Slot lookup. -/
def Arena.slotAt (t : Arena) (id : Nat) : Slot := t.slots.getD id defaultSlot

/-- `tree[id].get()`: the node payload at an identifier. -/
def Arena.get (t : Arena) (id : Nat) : Node := (t.slotAt id).data

/-- `id.children(tree)`: the ordered child identifiers of a slot. -/
def Arena.kidsOf (t : Arena) (id : Nat) : List Nat := (t.slotAt id).kids

/-- `Arena::new_node`: append a fresh slot, returning the new arena and the
new node's identifier. -/
def Arena.newNode (t : Arena) (n : Node) : Arena × Nat :=
  (⟨t.slots ++ [⟨n, [], false⟩]⟩, t.slots.length)

/-- Point update of a slot list (identity when the index is out of range). -/
def modifySlot : List Slot → Nat → (Slot → Slot) → List Slot
  | [], _, _ => []
  | s :: rest, 0, f => f s :: rest
  | s :: rest, n + 1, f => s :: modifySlot rest n f

/-- `node.set_file_size(dir_size)`: modelled from the spec, it stores the
aggregated byte count into the node's size field. -/
def Arena.setFileSizeAt (t : Arena) (id : Nat) (s : Nat) : Arena :=
  ⟨modifySlot t.slots id (fun sl => { sl with data := { sl.data with file_size := some s } })⟩

/-- `current_node_id.append(child_id, tree)`: add a child link at the end of
the parent's child list. -/
def Arena.appendKid (t : Arena) (par : Nat) (k : Nat) : Arena :=
  ⟨modifySlot t.slots par (fun sl => { sl with kids := sl.kids ++ [k] })⟩

/-- The stored byte count of a node: its size field, or 0 when unset.  This
is the contribution `assemble_tree` adds for a child (`file_size().bytes`
when present, nothing otherwise). -/
def Arena.bytesOf (t : Arena) (id : Nat) : Nat := ((t.get id).file_size).getD 0

/-- The pending-children index `HashMap<PathBuf, Vec<NodeId>>`, as an
association list.  All code paths insert a key only when it is absent, so the
keys stay pairwise distinct, matching the hash-map semantics. -/
abbrev Branches := List (FsPath × List Nat)

/-- Keys of the pending-children index. -/
def branchesKeys (b : Branches) : List FsPath := b.map Prod.fst

/-- `branches.contains_key(path)`. -/
def branchesContains (b : Branches) (p : FsPath) : Bool :=
  b.any (fun kv => kv.fst = p)

/-- `branches.insert(path, v)` (hash-map semantics: replace the binding if
the key is present, otherwise add it). -/
def branchesInsert : Branches → FsPath → List Nat → Branches
  | [], p, v => [(p, v)]
  | kv :: rest, p, v =>
    if kv.fst = p then (p, v) :: rest else kv :: branchesInsert rest p v

/-- `branches.remove(path)`: take out the binding of `path`, returning its
value and the remaining index, or `none` when the key is absent. -/
def branchesRemove : Branches → FsPath → Option (List Nat × Branches)
  | [], _ => none
  | kv :: rest, p =>
    if kv.fst = p then some (kv.snd, rest)
    else
      match branchesRemove rest p with
      | none => none
      | some (v, rest') => some (v, kv :: rest')

/-- `branches.get_mut(&parent).map(|v| v.push(id))`: push onto the binding of
`parent`, or `none` when the key is absent. -/
def branchesPush : Branches → FsPath → Nat → Option Branches
  | [], _, _ => none
  | kv :: rest, p, id =>
    if kv.fst = p then some ((kv.fst, kv.snd ++ [id]) :: rest)
    else
      match branchesPush rest p id with
      | none => none
      | some rest' => some (kv :: rest')

/-- All node identifiers mentioned in pending-children lists. -/
def allBranchIds (b : Branches) : List Nat := (b.map Prod.snd).flatten

/-- Digit-count helper `num_integral` of `src/utils.rs`: `0` maps to `0`,
and a positive value maps to `ilog10 + 1` (`Nat.log 10` is `u64::ilog10` for
positive arguments). -/
def num_integral (value : Nat) : Nat :=
  if value = 0 then 0 else Nat.log 10 value + 1

/-- Modelled from the spec: the error kinds of `error.rs` (not part of the
provided sources): directory-not-found, missing-root, expected-parent, and
the I/O error surfaced while canonicalizing the root. -/
inductive Error where
  | expectedParent
  | missingRoot
  | dirNotFound
  | ioFailure
  deriving DecidableEq

/-- The consumer thread's owned state in `Tree::traverse`: the arena being
built, the pending-children index, the inode-seen set, and the root
identifier once a depth-0 directory has been observed. -/
structure CState where
  tree : Arena
  branches : Branches
  inodes : List (Nat × Nat)
  rootId : Option Nat
  deriving DecidableEq

/-- The consumer's initial state. -/
def initState : CState := ⟨⟨[]⟩, [], [], none⟩

/-- Lines 86-91 of mod.rs: a directory gets a pending-children slot when its
path has none yet. -/
def ensureDirBranch (st : CState) (node : Node) : CState :=
  if node.is_dir ∧ ¬ branchesContains st.branches node.path then
    { st with branches := branchesInsert st.branches node.path [] }
  else st

/-- The hard-link dedup check (mod.rs lines 99-106): `none` means the entry
is a duplicate hard link and the message is discarded; otherwise the state,
with the inode identity recorded when the link-count exceeds 1. -/
def dedupInode (st : CState) (node : Node) : Option CState :=
  match node.inode with
  | some inod =>
    if inod.nlink > 1 then
      if inod.properties ∈ st.inodes then none
      else some { st with inodes := inod.properties :: st.inodes }
    else some st
  | none => some st

/-- The parent lookup and node creation (mod.rs lines 108-117): derive the
parent path or fail with `ExpectedParent`; create the node; push its
identifier onto the parent's pending list — or, when the parent has no list
yet, insert an *empty* list (the source's `vec![]`), dropping the id. -/
def attachToParent (st : CState) (node : Node) : Except Error CState :=
  match node.parent_path with
  | none => Except.error Error.expectedParent
  | some parent =>
    match branchesPush st.branches parent (st.tree.newNode node).2 with
    | some b => Except.ok { st with tree := (st.tree.newNode node).1, branches := b }
    | none =>
      Except.ok
        { st with
          tree := (st.tree.newNode node).1
          branches := branchesInsert st.branches parent [] }

/-- One iteration of the consumer's receive loop in `Tree::traverse` for a
`TraversalState::Ongoing(node)` message (mod.rs lines 85-118): directories
get a pending-children slot; the depth-0 directory becomes the root and the
iteration ends; then the hard-link dedup, and finally the parent attachment. -/
def consumeStep (st : CState) (e : Entry) : Except Error CState :=
  let node := Node.ofEntry e
  let st := ensureDirBranch st node
  if node.is_dir ∧ node.depth = 0 then
    Except.ok { st with tree := (st.tree.newNode node).1, rootId := some (st.tree.newNode node).2 }
  else
    match dedupInode st node with
    | none => Except.ok st
    | some st => attachToParent st node

/-- The consumer's receive loop over the sequence of `Ongoing` messages (the
`Finished` message merely terminates the loop). -/
def consumeLoop (st : CState) : List Entry → Except Error CState
  | [] => Except.ok st
  | e :: rest =>
    match consumeStep st e with
    | Except.error err => Except.error err
    | Except.ok st' => consumeLoop st' rest

/-- Modelled from the spec: the sort-order collaborator (`order.rs` is not
part of the provided sources) yields an optional three-way comparator over
two nodes; `none` preserves discovery order. -/
abbrev Sorter := Option (Node → Node → Ordering)

/-- The `children.sort_by(...)` call of `assemble_tree`: a stable sort by the
configured comparator, or the identity when no comparator is configured. -/
def sortChildren (sorter : Sorter) (t : Arena) (children : List Nat) : List Nat :=
  match sorter with
  | none => children
  | some f =>
    children.mergeSort (fun a b => ¬ (f (t.get a) (t.get b)) = Ordering.gt)

/-- The child loop of `assemble_tree`, parametrized by the recursive call
`rec` (which will be `assembleTree` at the next lower fuel): recurse into
directory children, then add each child's stored byte count (0 when unset)
to the running total `acc`. -/
def assembleChildren (rec : Arena → Nat → Branches → Option (Arena × Branches)) :
    Arena → Branches → List Nat → Nat → Option (Arena × Branches × Nat)
  | tree, branches, [], acc => some (tree, branches, acc)
  | tree, branches, childId :: rest, acc =>
    let step : Option (Arena × Branches) :=
      if (tree.get childId).is_dir then rec tree childId branches
      else some (tree, branches)
    match step with
    | none => none
    | some (tree', branches') =>
      assembleChildren rec tree' branches' rest (acc + tree'.bytesOf childId)

/-- `Tree::assemble_tree` (mod.rs lines 145-191): remove the current node's
pending-children list (the source's `.unwrap()` panic on an absent key is the
`none` result), process the children accumulating the directory size, stamp
the size when positive, sort, and append the children to the current node.
The `fuel` argument only bounds the recursion depth for Lean's termination
checker; every theorem below is conditioned on the computation returning a
result, which the pipeline's choice of fuel always allows. -/
def assembleTree (sorter : Sorter) : Nat → Arena → Nat → Branches → Option (Arena × Branches)
  | 0, _, _, _ => none
  | fuel + 1, tree, currentNodeId, branches =>
    match branchesRemove branches (tree.get currentNodeId).path with
    | none => none
    | some (children, branches1) =>
      match assembleChildren (assembleTree sorter fuel) tree branches1 children 0 with
      | none => none
      | some (tree2, branches2, dirSize) =>
        let tree3 := if dirSize > 0 then tree2.setFileSizeAt currentNodeId dirSize else tree2
        let sorted := sortChildren sorter tree3 children
        let tree4 := sorted.foldl (fun t k => t.appendKid currentNodeId k) tree3
        some (tree4, branches2)

/-- `root_id.descendants(tree)`: the identifiers of a node and its
descendants in depth-first pre-order, following the arena's child links.
`fuel` bounds the depth for the termination checker; `tree.slots.length + 1`
is always enough on the acyclic arenas the pipeline builds. -/
def descend : Nat → Arena → Nat → List Nat
  | 0, _, _ => []
  | fuel + 1, t, id => id :: ((t.kidsOf id).map (descend fuel t)).flatten

/-- Mark every slot of the given identifier list as removed. -/
def markRemoved (ids : List Nat) (t : Arena) : Arena :=
  ⟨t.slots.mapIdx (fun i s => if i ∈ ids then { s with removed := true } else s)⟩

/-- `node_id.remove_subtree(tree)`: detach the subtree rooted at `id` from
its parent's child list and remove all its nodes from the arena. -/
def removeSubtree (id : Nat) (t : Arena) : Arena :=
  let sub := descend (t.slots.length + 1) t id
  let t1 := markRemoved sub t
  ⟨t1.slots.map (fun s => { s with kids := s.kids.erase id })⟩

/-- `Tree::prune_directories` (mod.rs lines 194-210): one pass over the
root's descendants collecting every directory whose child list is currently
empty, then removal of each collected subtree. -/
def pruneDirectories (rootId : Nat) (tree : Arena) : Arena :=
  let toPrune := (descend (tree.slots.length + 1) tree rootId).filter
    (fun nodeId => (tree.get nodeId).is_dir ∧ tree.kidsOf nodeId = [])
  toPrune.foldl (fun t nodeId => removeSubtree nodeId t) tree

/-- The collection-plus-assembly portion of `Tree::traverse`: run the
consumer loop, require a root, then assemble.  `none` covers both a loop
error and an assembly panic; the theorems about sizes are stated against
this stage, before optional pruning, matching "after assembly completes". -/
def assembledModel (sorter : Sorter) (msgs : List Entry) : Option (Arena × Nat) :=
  match consumeLoop initState msgs with
  | Except.error _ => none
  | Except.ok st =>
    match st.rootId with
    | none => none
    | some root =>
      match assembleTree sorter (st.branches.length + 1) st.tree root st.branches with
      | none => none
      | some (tree, _) => some (tree, root)

/-- Result of the whole `Tree::traverse` operation: a finished arena and
root, an `Error` return, or a Rust panic (the `unwrap` in `assemble_tree`). -/
inductive Outcome where
  | ok (tree : Arena) (root : Nat)
  | err (e : Error)
  | panicked
  deriving DecidableEq

/-- The whole operation, `WalkParallel::try_from` followed by `Tree::traverse`'s
consumer: `fs::canonicalize` and `fs::metadata` are external filesystem calls,
represented by the booleans `canonOk` and `metaOk` (modelled from the spec's
external-interface section); then the receive loop, the missing-root check,
assembly, and optional pruning. -/
def traverseModel (canonOk metaOk doPrune : Bool) (sorter : Sorter) (msgs : List Entry) : Outcome :=
  if ¬ canonOk then Outcome.err Error.ioFailure
  else if ¬ metaOk then Outcome.err Error.dirNotFound
  else
    match consumeLoop initState msgs with
    | Except.error e => Outcome.err e
    | Except.ok st =>
      match st.rootId with
      | none => Outcome.err Error.missingRoot
      | some root =>
        match assembleTree sorter (st.branches.length + 1) st.tree root st.branches with
        | none => Outcome.panicked
        | some (tree, _) =>
          Outcome.ok (if doPrune then pruneDirectories root tree else tree) root

/-- `Tree::level`: the configured depth limit, `usize::MAX` when unset. -/
def levelOf (ctxLevel : Option Nat) : Nat := ctxLevel.getD (2 ^ 64 - 1)

/-- The identifiers whose lines the `Display` implementation emits, in
order (mod.rs lines 231-306): the root's line is written unconditionally
before the loop; then every proper descendant in pre-order gets a line
exactly when its depth is within the limit (`current_node.depth <= level`).
The prefix glyphs do not influence which nodes are emitted and are omitted. -/
def emittedIds (fuel : Nat) (t : Arena) (rootId : Nat) (level : Nat) : List Nat :=
  rootId :: ((descend fuel t rootId).drop 1).filter (fun id => (t.get id).depth ≤ level)

/-- A slot is in its pre-assembly shape: no recorded size and no child links
yet.  Every directory slot built by the consumer loop is in this shape. -/
def PreSlot (t : Arena) (id : Nat) : Prop :=
  (t.get id).file_size = none ∧ t.kidsOf id = []

/-- The local size invariant of an assembled node: its stored byte count is
the sum of its children's stored byte counts, and an explicitly stored size
is positive (`assemble_tree` never stamps zero). -/
def GoodDir (t : Arena) (id : Nat) : Prop :=
  t.bytesOf id = ((t.kidsOf id).map t.bytesOf).sum ∧
    ∀ s, (t.get id).file_size = some s → 0 < s

/-- The subtree below `id` has depth less than `fuel` (so that the
fuel-bounded traversals below are exhaustive). -/
def boundedBy : Nat → Arena → Nat → Bool
  | 0, _, _ => false
  | fuel + 1, t, id => (t.kidsOf id).all (boundedBy fuel t)

/-- The exact sum of the sizes of all file descendants in the subtree rooted
at `id` (a file contributes its own size). -/
def fileSum : Nat → Arena → Nat → Nat
  | 0, _, _ => 0
  | fuel + 1, t, id =>
    if (t.get id).kind = NodeKind.file then ((t.get id).file_size).getD 0
    else ((t.kidsOf id).map (fileSum fuel t)).sum

/-- Every child link increases the stored depth by exactly one (the walker's
contract relating an entry's depth to its path).  Stated over the arena's
slot range so that it is decidable on concrete arenas. -/
def depthStepOK (t : Arena) : Bool :=
  (List.range t.slots.length).all
    (fun a => (t.kidsOf a).all (fun k => (t.get k).depth = (t.get a).depth + 1))

/-- Concrete input for the orphaned-child run: the root directory, then a
file two levels down arriving before its parent directory has been seen. -/
def c1msgs : List Entry :=
  [⟨[0], 0, NodeKind.dir, 0, none⟩,
   ⟨[0, 1, 2], 2, NodeKind.file, 7, none⟩,
   ⟨[0, 1], 1, NodeKind.dir, 0, none⟩]

/-- Concrete input with a chain of nested empty directories under the root:
`/`, `/1`, `/1/2`, no files anywhere. -/
def cascadeMsgs : List Entry :=
  [⟨[0], 0, NodeKind.dir, 0, none⟩,
   ⟨[0, 1], 1, NodeKind.dir, 0, none⟩,
   ⟨[0, 1, 2], 2, NodeKind.dir, 0, none⟩]

/-- The arena that assembly produces from `cascadeMsgs` (checked against the
pipeline inside the theorems that use it). -/
def cascadeAssembled : Arena :=
  ⟨[⟨⟨[0], 0, NodeKind.dir, none, none⟩, [1], false⟩,
    ⟨⟨[0, 1], 1, NodeKind.dir, none, none⟩, [2], false⟩,
    ⟨⟨[0, 1, 2], 2, NodeKind.dir, none, none⟩, [], false⟩]⟩

/-- A one-slot arena holding a single root directory. -/
def soloDirArena : Arena :=
  ⟨[⟨⟨[0], 0, NodeKind.dir, none, none⟩, [], false⟩]⟩

/-- Whether an optional inode carries the given `(device, inode)` identity. -/
def idnMatches (dev ino : Nat) : Option Inode → Bool
  | some i => i.dev = dev ∧ i.ino = ino
  | none => false

/-- Number of arena nodes carrying the given `(device, inode)` identity. -/
def countIdn (dev ino : Nat) (t : Arena) : Nat :=
  t.slots.countP (fun s => idnMatches dev ino s.data.inode)

/-- Running invariant of the consumer loop for one inode identity: the arena
holds exactly one matching node when the identity is in the inode-seen set,
and none otherwise. -/
def IdnInv (dev ino : Nat) (st : CState) : Prop :=
  countIdn dev ino st.tree = if (dev, ino) ∈ st.inodes then 1 else 0

/-- The link count carried by an entry (0 when it has no inode data). -/
def nlinkOf (e : Entry) : Nat :=
  match e.inode with
  | some i => i.nlink
  | none => 0

/-- Concrete input for the hard-link witness: a root and two files sharing
inode identity `(1, 5)` with link-count 2. -/
def c5msgs : List Entry :=
  [⟨[0], 0, NodeKind.dir, 0, none⟩,
   ⟨[0, 1], 1, NodeKind.file, 3, some ⟨1, 5, 2⟩⟩,
   ⟨[0, 2], 1, NodeKind.file, 3, some ⟨1, 5, 2⟩⟩]

/-- The consumer state reached on `c5msgs` (checked by `rfl` inside the
witness). -/
def c5State : CState :=
  ⟨⟨[⟨⟨[0], 0, NodeKind.dir, none, none⟩, [], false⟩,
     ⟨⟨[0, 1], 1, NodeKind.file, some 3, some ⟨1, 5, 2⟩⟩, [], false⟩]⟩,
   [([0], [1])], [(1, 5)], some 0⟩

/-- Summary of what one assembly phase (a recursive `assemble_tree` call or
a run of its child loop) does to the arena and the pending-children index:
the arena keeps its size; the index loses entries; every node keeps its
payload apart from the size field; only directories whose path entry was
consumed are touched; freshly attached children are such directories; and
every touched slot that started in pre-assembly shape ends locally
size-correct with all its directory children consumed. -/
structure AsmStep (t t' : Arena) (b b' : Branches) : Prop where
  len : t'.slots.length = t.slots.length
  sub : List.Sublist b' b
  core : ∀ id, (t'.get id).path = (t.get id).path ∧ (t'.get id).depth = (t.get id).depth ∧
    (t'.get id).kind = (t.get id).kind ∧ (t'.get id).inode = (t.get id).inode ∧
    (t'.slotAt id).removed = (t.slotAt id).removed
  frame : ∀ id, t'.slotAt id ≠ t.slotAt id →
    (t.get id).is_dir = true ∧ (t.get id).path ∈ branchesKeys b ∧
      (t.get id).path ∉ branchesKeys b'
  newkids : ∀ id k, k ∈ t'.kidsOf id → k ∈ t.kidsOf id ∨
    ((t.get k).is_dir = true →
      (t.get k).path ∈ branchesKeys b ∧ (t.get k).path ∉ branchesKeys b')
  good : ∀ id, t'.slotAt id = t.slotAt id ∨
    (PreSlot t id → GoodDir t' id ∧
      ∀ k ∈ t'.kidsOf id, (t'.get k).is_dir = true → (t'.get k).path ∉ branchesKeys b')
  stamp : ∀ id, (t'.get id).file_size ≠ (t.get id).file_size →
    ∃ s, 0 < s ∧ (t'.get id).file_size = some s

/-- What `assemble_tree` does to the node it is called on: its pending entry
is consumed, the (sorted) children are appended to its empty child list, and
its size field receives the children's total exactly when that is positive. -/
def AsmOut (t : Arena) (c : Nat) (b : Branches) (t' : Arena) (b' : Branches) : Prop :=
  ∃ children b1, branchesRemove b (t.get c).path = some (children, b1) ∧
    (t.get c).path ∈ branchesKeys b ∧ (t.get c).path ∉ branchesKeys b' ∧
    ∃ sorted, sorted.Perm children ∧
      t'.kidsOf c = t.kidsOf c ++ sorted ∧
      (t'.get c).file_size =
        (if 0 < (children.map t'.bytesOf).sum
          then some ((children.map t'.bytesOf).sum)
          else (t.get c).file_size)

/-- Shape invariant of the consumer state: no child links yet, sizes only on
file nodes, pairwise-distinct index keys, and a directory as root. -/
def ConsumeInv (st : CState) : Prop :=
  (∀ id, st.tree.kidsOf id = []) ∧
  (∀ id, (st.tree.get id).kind ≠ NodeKind.file → (st.tree.get id).file_size = none) ∧
  (branchesKeys st.branches).Nodup ∧
  (∀ r, st.rootId = some r → (st.tree.get r).is_dir = true)

/-- Concrete input for the size witness: a root holding a 10-byte file and a
subdirectory holding a 5-byte file. -/
def c3msgs : List Entry :=
  [⟨[0], 0, NodeKind.dir, 0, none⟩,
   ⟨[0, 1], 1, NodeKind.file, 10, none⟩,
   ⟨[0, 2], 1, NodeKind.dir, 0, none⟩,
   ⟨[0, 2, 3], 2, NodeKind.file, 5, none⟩]

/-- The arena that assembly produces from `c3msgs` (checked by `rfl` inside
the witness). -/
def c3T : Arena :=
  ⟨[⟨⟨[0], 0, NodeKind.dir, some 15, none⟩, [1, 2], false⟩,
    ⟨⟨[0, 1], 1, NodeKind.file, some 10, none⟩, [], false⟩,
    ⟨⟨[0, 2], 1, NodeKind.dir, some 5, none⟩, [3], false⟩,
    ⟨⟨[0, 2, 3], 2, NodeKind.file, some 5, none⟩, [], false⟩]⟩

/-- Concrete pre-assembly arena for the C7 witness: a root directory and a
7-byte file. -/
def c7t : Arena :=
  ⟨[⟨⟨[0], 0, NodeKind.dir, none, none⟩, [], false⟩,
    ⟨⟨[0, 1], 1, NodeKind.file, some 7, none⟩, [], false⟩]⟩

/-- The arena after assembling `c7t` (checked by `rfl` inside the witness). -/
def c7tAfter : Arena :=
  ⟨[⟨⟨[0], 0, NodeKind.dir, some 7, none⟩, [1], false⟩,
    ⟨⟨[0, 1], 1, NodeKind.file, some 7, none⟩, [], false⟩]⟩

/-- C10: `num_integral` returns 0 on input 0, and for every positive value
it returns `floor(log10 value) + 1`, which is the number of base-10 digits
of the value; equivalently, `value` lies in `[10^(d-1), 10^d)` for the
returned `d`. -/
theorem c10_num_integral_digits :
    num_integral 0 = 0 ∧
    ∀ v : Nat, 0 < v →
      num_integral v = Nat.log 10 v + 1 ∧
      num_integral v = (Nat.digits 10 v).length ∧
      10 ^ (num_integral v - 1) ≤ v ∧ v < 10 ^ num_integral v := by
  refine ⟨rfl, fun v hv => ?_⟩
  have hv0 : v ≠ 0 := Nat.pos_iff_ne_zero.mp hv
  have hlog : num_integral v = Nat.log 10 v + 1 := by
    simp [num_integral, hv0]
  refine ⟨hlog, ?_, ?_, ?_⟩
  · rw [hlog, Nat.digits_len 10 v (by norm_num) hv0]
  · rw [hlog]
    simpa using Nat.pow_log_le_self 10 hv0
  · rw [hlog]
    exact Nat.lt_pow_succ_log_self (by norm_num) v

/-- Witness for C10 at the concrete value 1234. -/
theorem c10_witness :
    num_integral 0 = 0 ∧
    (num_integral 1234 = Nat.log 10 1234 + 1 ∧
      num_integral 1234 = (Nat.digits 10 1234).length ∧
      10 ^ (num_integral 1234 - 1) ≤ 1234 ∧ 1234 < 10 ^ num_integral 1234) :=
  ⟨c10_num_integral_digits.1, c10_num_integral_digits.2 1234 (by norm_num)⟩

/-- C1 (failing run): on `c1msgs` the file `/1/2` (node identifier 1) is
discovered before its parent directory `/1`.  The consumer creates the
parent's pending-children list but inserts it *empty* (`vec![]`), so the new
node's identifier ends up in no pending-children list at all, contradicting
the claim that it is pushed into the freshly created list. -/
theorem c1_child_id_dropped_when_parent_unseen :
    consumeLoop initState c1msgs =
      Except.ok
        ⟨⟨[⟨⟨[0], 0, NodeKind.dir, none, none⟩, [], false⟩,
           ⟨⟨[0, 1, 2], 2, NodeKind.file, some 7, none⟩, [], false⟩,
           ⟨⟨[0, 1], 1, NodeKind.dir, none, none⟩, [], false⟩]⟩,
         [([0], [2]), ([0, 1], [])], [], some 0⟩ ∧
    branchesContains [([0], [2]), ([0, 1], [])] [0, 1] = true ∧
    1 ∉ allBranchIds [([0], [2]), ([0, 1], [])] := by
  refine ⟨by rfl, by decide, by decide⟩

/-- C2 (failing run): assembling `cascadeMsgs` yields root → dir 1 → dir 2
with no files; a single `prune_directories` removes only the innermost
directory 2, and directory 1 — which thereby became empty — survives: it is
still a directory, still attached below the root, not removed, and its
subtree contains zero files. -/
theorem c2_prune_leaves_cascaded_empty_dir :
    assembledModel none cascadeMsgs = some (cascadeAssembled, 0) ∧
    (Arena.get (pruneDirectories 0 cascadeAssembled) 1).is_dir = true ∧
    1 ∈ descend 4 (pruneDirectories 0 cascadeAssembled) 0 ∧
    ((pruneDirectories 0 cascadeAssembled).slotAt 1).removed = false ∧
    ∀ x ∈ descend 4 (pruneDirectories 0 cascadeAssembled) 1,
      (Arena.get (pruneDirectories 0 cascadeAssembled) x).kind ≠ NodeKind.file := by
  refine ⟨by decide, by decide, by decide, by decide, by decide⟩

/-- C4 (failing run): pruning the assembled `cascadeMsgs` tree twice removes
directory 1 (left behind by the first pass), so prune ∘ prune differs from a
single prune — pruning is not idempotent. -/
theorem c4_prune_not_idempotent :
    assembledModel none cascadeMsgs = some (cascadeAssembled, 0) ∧
    pruneDirectories 0 (pruneDirectories 0 cascadeAssembled) ≠
      pruneDirectories 0 cascadeAssembled := by
  refine ⟨by decide, by decide⟩

/-- C9 (counterexample): assembling a lone root directory with an *empty*
pending-children index does not complete normally with zero children — the
source's `branches.remove(path).unwrap()` panics (modelled as `none`). -/
theorem c9_absent_entry_cx :
    assembleTree none 5 soloDirArena 0 [] = none := by decide

/-- C9 (amended): when the current directory's path is absent from the
pending-children index, `assemble_tree` panics; only a *present* empty list
is treated as "zero children", in which case assembly returns the arena
unchanged. -/
theorem c9_absent_entry_amended :
    (∀ (sorter : Sorter) (fuel : Nat) (t : Arena) (c : Nat) (b : Branches),
      branchesRemove b (Arena.get t c).path = none →
      assembleTree sorter (fuel + 1) t c b = none) ∧
    (∀ (sorter : Sorter) (fuel : Nat) (t : Arena) (c : Nat) (b b1 : Branches),
      branchesRemove b (Arena.get t c).path = some ([], b1) →
      assembleTree sorter (fuel + 1) t c b = some (t, b1)) := by
  constructor
  · intro sorter fuel t c b h
    simp [assembleTree, h]
  · intro sorter fuel t c b b1 h
    cases sorter <;> simp [assembleTree, h, assembleChildren, sortChildren, List.mergeSort]

/-- Witness for the amended C9 at concrete inputs. -/
theorem c9_amended_witness :
    assembleTree none 1 soloDirArena 0 [] = none ∧
    assembleTree none 1 soloDirArena 0 [([0], [])] = some (soloDirArena, []) :=
  ⟨c9_absent_entry_amended.1 none 0 soloDirArena 0 [] (by decide),
   c9_absent_entry_amended.2 none 0 soloDirArena 0 [([0], [])] [] (by decide)⟩

/-- The branch-ensuring stage touches only the pending-children index. -/
theorem ensureDirBranch_tree (st : CState) (n : Node) :
    (ensureDirBranch st n).tree = st.tree := by
  unfold ensureDirBranch; split <;> rfl

/-- The branch-ensuring stage leaves the inode-seen set unchanged. -/
theorem ensureDirBranch_inodes (st : CState) (n : Node) :
    (ensureDirBranch st n).inodes = st.inodes := by
  unfold ensureDirBranch; split <;> rfl

/-- The branch-ensuring stage leaves the root identifier unchanged. -/
theorem ensureDirBranch_rootId (st : CState) (n : Node) :
    (ensureDirBranch st n).rootId = st.rootId := by
  unfold ensureDirBranch; split <;> rfl

/-- Effect of `new_node` on the per-identity node count. -/
theorem countIdn_newNode (dev ino : Nat) (t : Arena) (n : Node) :
    countIdn dev ino (t.newNode n).1 =
      countIdn dev ino t + (if idnMatches dev ino n.inode then 1 else 0) := by
  simp [countIdn, Arena.newNode, List.countP_append, List.countP_cons]

/-- A successful `attachToParent` appends exactly the new node to the arena
and leaves the inode-seen set and root unchanged. -/
theorem attachToParent_ok (s s2 : CState) (n : Node)
    (h : attachToParent s n = Except.ok s2) :
    s2.tree = (s.tree.newNode n).1 ∧ s2.inodes = s.inodes ∧ s2.rootId = s.rootId := by
  unfold attachToParent at h
  split at h
  · exact absurd h (by simp)
  · split at h <;> (cases h; exact ⟨rfl, rfl, rfl⟩)

/-- A discarded message (`dedupInode = none`) is a duplicate hard link: its
inode identity was already in the seen set. -/
theorem dedupInode_none (s : CState) (n : Node)
    (h : dedupInode s n = none) :
    ∃ i, n.inode = some i ∧ 1 < i.nlink ∧ i.properties ∈ s.inodes := by
  unfold dedupInode at h
  cases hni : n.inode with
  | none => simp only [hni] at h; cases h
  | some i =>
    simp only [hni] at h
    by_cases hl : i.nlink > 1
    · rw [if_pos hl] at h
      by_cases hm : i.properties ∈ s.inodes
      · exact ⟨i, rfl, hl, hm⟩
      · rw [if_neg hm] at h; cases h
    · rw [if_neg hl] at h; cases h

/-- Behaviour of a non-discarding dedup step on one tracked identity. -/
theorem dedupInode_some_idn (dev ino : Nat) (s s' : CState) (n : Node)
    (h : dedupInode s n = some s') :
    s'.tree = s.tree ∧ s'.branches = s.branches ∧ s'.rootId = s.rootId ∧
    s.inodes ⊆ s'.inodes ∧
    (idnMatches dev ino n.inode = false →
      ((dev, ino) ∈ s'.inodes ↔ (dev, ino) ∈ s.inodes)) ∧
    (∀ i, n.inode = some i → 1 < i.nlink → idnMatches dev ino n.inode = true →
      (dev, ino) ∉ s.inodes ∧ s'.inodes = (dev, ino) :: s.inodes) := by
  unfold dedupInode at h
  cases hni : n.inode with
  | none =>
    simp only [hni] at h
    cases h
    exact ⟨rfl, rfl, rfl, fun _ hx => hx, fun _ => Iff.rfl, fun i hi => by cases hi⟩
  | some i =>
    simp only [hni] at h
    by_cases hl : i.nlink > 1
    · rw [if_pos hl] at h
      by_cases hm : i.properties ∈ s.inodes
      · rw [if_pos hm] at h; cases h
      · rw [if_neg hm] at h
        cases h
        refine ⟨rfl, rfl, rfl, fun x hx => List.mem_cons_of_mem _ hx, ?_, ?_⟩
        · intro hnm
          constructor
          · intro hx
            rcases List.mem_cons.mp hx with hx | hx
            · exfalso
              rw [idnMatches] at hnm
              rw [decide_eq_false_iff_not] at hnm
              have : i.properties = (dev, ino) := hx.symm
              exact hnm ⟨congrArg Prod.fst this, congrArg Prod.snd this⟩
            · exact hx
          · exact fun hx => List.mem_cons_of_mem _ hx
        · intro j hj _ hmt
          have hij : j = i := (Option.some.inj hj).symm
          subst hij
          rw [idnMatches] at hmt
          rw [decide_eq_true_eq] at hmt
          have hprops : j.properties = (dev, ino) := by
            simp [Inode.properties, hmt.1, hmt.2]
          constructor
          · rw [← hprops]; exact hm
          · rw [← hprops]
    · rw [if_neg hl] at h
      cases h
      refine ⟨rfl, rfl, rfl, fun _ hx => hx, fun _ => Iff.rfl, ?_⟩
      intro j hj hjl _
      have hij : j = i := (Option.some.inj hj).symm
      subst hij
      exact absurd hjl hl

/-- One consumer step preserves the dedup invariant, grows the inode-seen
set monotonically, and leaves the tracked identity recorded whenever the
processed entry carries it. -/
theorem consumeStep_idn (dev ino : Nat) (st st2 : CState) (e : Entry)
    (he : ∀ i, e.inode = some i → i.dev = dev → i.ino = ino →
      1 < i.nlink ∧ ¬(e.kind = NodeKind.dir ∧ e.depth = 0))
    (hInv : IdnInv dev ino st)
    (h : consumeStep st e = Except.ok st2) :
    IdnInv dev ino st2 ∧ st.inodes ⊆ st2.inodes ∧
      (idnMatches dev ino e.inode = true → (dev, ino) ∈ st2.inodes) := by
  have hofi : (Node.ofEntry e).inode = e.inode := rfl
  simp only [consumeStep] at h
  set s1 := ensureDirBranch st (Node.ofEntry e) with hs1
  have e1 : s1.tree = st.tree := ensureDirBranch_tree st (Node.ofEntry e)
  have e2 : s1.inodes = st.inodes := ensureDirBranch_inodes st (Node.ofEntry e)
  split at h
  case isTrue hroot =>
    cases h
    have hnm : idnMatches dev ino e.inode = false := by
      cases hei : e.inode with
      | none => rfl
      | some i =>
        rw [idnMatches]
        rw [decide_eq_false_iff_not]
        rintro ⟨h1, h2⟩
        refine (he i hei h1 h2).2 ⟨?_, ?_⟩
        · have hd := hroot.1
          simpa [Node.is_dir, Node.ofEntry] using hd
        · simpa [Node.ofEntry] using hroot.2
    refine ⟨?_, ?_, ?_⟩
    · unfold IdnInv at hInv ⊢
      simp only [countIdn_newNode, e1, e2, hofi, hnm, hInv]
      simp
    · intro x hx
      simpa [e2] using hx
    · intro hm
      rw [hm] at hnm
      cases hnm
  case isFalse hroot =>
    cases hd : dedupInode s1 (Node.ofEntry e) with
    | none =>
      rw [hd] at h
      injection h with h'
      subst h'
      obtain ⟨i, hi, hl, hmem⟩ := dedupInode_none s1 (Node.ofEntry e) hd
      refine ⟨?_, ?_, ?_⟩
      · unfold IdnInv at hInv ⊢
        simpa [e1, e2] using hInv
      · intro x hx
        simpa [e2] using hx
      · intro hm
        rw [hofi] at hi
        rw [hi] at hm
        rw [idnMatches] at hm
        rw [decide_eq_true_eq] at hm
        have hprops : i.properties = (dev, ino) := by
          simp [Inode.properties, hm.1, hm.2]
        rw [hprops] at hmem
        exact hmem
    | some s' =>
      rw [hd] at h
      obtain ⟨g1, _, _, g4, g5, g6⟩ := dedupInode_some_idn dev ino s1 s' (Node.ofEntry e) hd
      obtain ⟨a1, a2, _⟩ := attachToParent_ok s' st2 (Node.ofEntry e) h
      by_cases hm : idnMatches dev ino e.inode = true
      · -- the entry carries the tracked identity; `he` forces nlink > 1
        obtain ⟨i, hi, hidev, hiino⟩ : ∃ i, e.inode = some i ∧ i.dev = dev ∧ i.ino = ino := by
          cases hei : e.inode with
          | none => rw [hei] at hm; cases hm
          | some i =>
            rw [hei] at hm
            rw [idnMatches] at hm
            rw [decide_eq_true_eq] at hm
            exact ⟨i, rfl, hm.1, hm.2⟩
        have hnl : 1 < i.nlink := (he i hi hidev hiino).1
        obtain ⟨hnotmem, hins⟩ := g6 i (by rw [hofi]; exact hi) hnl (by rw [hofi]; exact hm)
        have hnotmem' : (dev, ino) ∉ st.inodes := by rw [← e2]; exact hnotmem
        refine ⟨?_, ?_, ?_⟩
        · unfold IdnInv at hInv ⊢
          rw [a1, countIdn_newNode, g1, e1, hInv, hofi]
          rw [a2, hins, e2]
          simp [hm, hnotmem', List.mem_cons]
        · intro x hx
          rw [a2, hins, e2]
          exact List.mem_cons_of_mem _ hx
        · rw [a2, hins]
          intro _
          exact List.mem_cons_self _ _
      · have hm' : idnMatches dev ino e.inode = false := by
          cases hb : idnMatches dev ino e.inode
          · rfl
          · exact absurd hb hm
        have hmemiff : (dev, ino) ∈ s'.inodes ↔ (dev, ino) ∈ st.inodes := by
          rw [← e2]
          exact g5 (by rw [hofi]; exact hm')
        refine ⟨?_, ?_, ?_⟩
        · unfold IdnInv at hInv ⊢
          rw [a1, countIdn_newNode, g1, e1, hInv, hofi, hm']
          rw [a2]
          by_cases hmm : (dev, ino) ∈ st.inodes
          · simp [hmm, hmemiff.mpr hmm]
          · have : (dev, ino) ∉ s'.inodes := fun hx => hmm (hmemiff.mp hx)
            simp [hmm, this]
        · intro x hx
          rw [a2]
          exact g4 (by rw [e2]; exact hx)
        · intro hmt
          rw [hmt] at hm'
          cases hm'

/-- Per-entry bridge from the decidable dedup hypothesis to its pointwise
form. -/
theorem hlink_pointwise (dev ino : Nat) (e : Entry)
    (h : idnMatches dev ino e.inode = true →
      1 < nlinkOf e ∧ ¬(e.kind = NodeKind.dir ∧ e.depth = 0)) :
    ∀ i, e.inode = some i → i.dev = dev → i.ino = ino →
      1 < i.nlink ∧ ¬(e.kind = NodeKind.dir ∧ e.depth = 0) := by
  intro i hi h1 h2
  have hm : idnMatches dev ino e.inode = true := by
    rw [hi, idnMatches]
    rw [decide_eq_true_eq]
    exact ⟨h1, h2⟩
  have hr := h hm
  constructor
  · have : nlinkOf e = i.nlink := by rw [nlinkOf, hi]
    rw [this] at hr
    exact hr.1
  · exact hr.2

/-- The consumer loop preserves the dedup invariant along a list of messages
and records every identity it actually sees. -/
theorem consumeLoop_idn (dev ino : Nat) :
    ∀ (msgs : List Entry) (st st' : CState),
      (∀ e ∈ msgs, ∀ i, e.inode = some i → i.dev = dev → i.ino = ino →
        1 < i.nlink ∧ ¬(e.kind = NodeKind.dir ∧ e.depth = 0)) →
      IdnInv dev ino st →
      consumeLoop st msgs = Except.ok st' →
      IdnInv dev ino st' ∧ st.inodes ⊆ st'.inodes ∧
        ((∃ e ∈ msgs, idnMatches dev ino e.inode = true) → (dev, ino) ∈ st'.inodes) := by
  intro msgs
  induction msgs with
  | nil =>
    intro st st' _ hInv h
    simp only [consumeLoop] at h
    injection h with h'
    subst h'
    exact ⟨hInv, fun _ hx => hx, fun ⟨e, he, _⟩ => absurd he (List.not_mem_nil e)⟩
  | cons e rest ih =>
    intro st st' hall hInv h
    simp only [consumeLoop] at h
    cases hstep : consumeStep st e with
    | error err => rw [hstep] at h; cases h
    | ok st1 =>
      simp only [hstep] at h
      obtain ⟨i1, i2, i3⟩ :=
        consumeStep_idn dev ino st st1 e (hall e (List.mem_cons_self e rest)) hInv hstep
      obtain ⟨j1, j2, j3⟩ := ih st1 st' (fun x hx => hall x (List.mem_cons_of_mem e hx)) i1 h
      refine ⟨j1, fun x hx => j2 (i2 hx), ?_⟩
      rintro ⟨x, hxmem, hxm⟩
      rcases List.mem_cons.mp hxmem with hx | hx
      · subst hx
        exact j2 (i3 hxm)
      · exact j3 ⟨x, hx, hxm⟩

/-- C5: among `N ≥ 1` discovered entries with link-count above 1 sharing one
`(device, inode)` identity (none of which is the depth-0 root directory,
which bypasses the dedup check), a completed consumer run creates exactly
one node carrying that identity: the first occurrence is recorded and kept,
every later occurrence is discarded silently. -/
theorem c5_hardlink_dedup (dev ino : Nat) (msgs : List Entry) (st' : CState)
    (hlink : ∀ e ∈ msgs, idnMatches dev ino e.inode = true →
      1 < nlinkOf e ∧ ¬(e.kind = NodeKind.dir ∧ e.depth = 0))
    (hex : ∃ e ∈ msgs, idnMatches dev ino e.inode = true)
    (hok : consumeLoop initState msgs = Except.ok st') :
    countIdn dev ino st'.tree = 1 := by
  have hInv0 : IdnInv dev ino initState := by
    simp [IdnInv, initState, countIdn]
  obtain ⟨j1, _, j3⟩ :=
    consumeLoop_idn dev ino msgs initState st'
      (fun e he => hlink_pointwise dev ino e (hlink e he)) hInv0 hok
  unfold IdnInv at j1
  rw [j1, if_pos (j3 hex)]

/-- Witness for C5 on `c5msgs`: two hard-linked files, one node. -/
theorem c5_witness :
    consumeLoop initState c5msgs = Except.ok c5State ∧
      countIdn 1 5 c5State.tree = 1 :=
  ⟨by rfl, c5_hardlink_dedup 1 5 c5msgs c5State (by decide) (by decide) (by rfl)⟩

/-- A failing consumer step is an `ExpectedParent` failure on an entry with
an unresolvable parent path that is not the depth-0 root directory. -/
theorem consumeStep_error (st : CState) (e : Entry) (err : Error)
    (h : consumeStep st e = Except.error err) :
    err = Error.expectedParent ∧ e.path = [] ∧
      ¬(e.kind = NodeKind.dir ∧ e.depth = 0) := by
  simp only [consumeStep] at h
  split at h
  case isTrue hroot => cases h
  case isFalse hroot =>
    cases hd : dedupInode (ensureDirBranch st (Node.ofEntry e)) (Node.ofEntry e) with
    | none => rw [hd] at h; cases h
    | some s' =>
      simp only [hd] at h
      unfold attachToParent at h
      split at h
      case h_1 hpp =>
        injection h with h'
        refine ⟨h'.symm, ?_, ?_⟩
        · unfold Node.parent_path at hpp
          by_cases hp : (Node.ofEntry e).path = []
          · simpa [Node.ofEntry] using hp
          · rw [if_neg hp] at hpp; cases hpp
        · rintro ⟨hk, hdep⟩
          exact hroot ⟨by simp [Node.is_dir, Node.ofEntry, hk], by simp [Node.ofEntry, hdep]⟩
      case h_2 => split at h <;> cases h

/-- A successful consumer step has a root identifier exactly when one was
already present or the processed entry is a depth-0 directory. -/
theorem consumeStep_rootId (st st2 : CState) (e : Entry)
    (h : consumeStep st e = Except.ok st2) :
    (st2.rootId.isSome = true ↔
      (st.rootId.isSome = true ∨ (e.kind = NodeKind.dir ∧ e.depth = 0))) := by
  simp only [consumeStep] at h
  split at h
  case isTrue hroot =>
    cases h
    have hcond : e.kind = NodeKind.dir ∧ e.depth = 0 :=
      ⟨by simpa [Node.is_dir, Node.ofEntry] using hroot.1, by simpa [Node.ofEntry] using hroot.2⟩
    simp [hcond]
  case isFalse hroot =>
    have hcond : ¬(e.kind = NodeKind.dir ∧ e.depth = 0) := by
      rintro ⟨hk, hdep⟩
      exact hroot ⟨by simp [Node.is_dir, Node.ofEntry, hk], by simp [Node.ofEntry, hdep]⟩
    have hr2 : st2.rootId = st.rootId := by
      cases hd : dedupInode (ensureDirBranch st (Node.ofEntry e)) (Node.ofEntry e) with
      | none =>
        rw [hd] at h
        injection h with h'
        subst h'
        exact ensureDirBranch_rootId st (Node.ofEntry e)
      | some s' =>
        simp only [hd] at h
        obtain ⟨_, _, ha⟩ := attachToParent_ok s' st2 (Node.ofEntry e) h
        obtain ⟨_, _, hroot', _, _, _⟩ :=
          dedupInode_some_idn 0 0 (ensureDirBranch st (Node.ofEntry e)) s' (Node.ofEntry e) hd
        rw [ha, hroot', ensureDirBranch_rootId]
    simp [hr2, hcond]

/-- Along a successful consumer run, a root identifier exists exactly when
one existed already or some message is a depth-0 directory. -/
theorem consumeLoop_rootId :
    ∀ (msgs : List Entry) (st st' : CState),
      consumeLoop st msgs = Except.ok st' →
      (st'.rootId.isSome = true ↔
        (st.rootId.isSome = true ∨ ∃ e ∈ msgs, e.kind = NodeKind.dir ∧ e.depth = 0)) := by
  intro msgs
  induction msgs with
  | nil =>
    intro st st' h
    simp only [consumeLoop] at h
    injection h with h'
    subst h'
    simp
  | cons e rest ih =>
    intro st st' h
    simp only [consumeLoop] at h
    cases hstep : consumeStep st e with
    | error err => rw [hstep] at h; cases h
    | ok st1 =>
      simp only [hstep] at h
      have h1 := consumeStep_rootId st st1 e hstep
      have h2 := ih st1 st' h
      rw [h2, h1]
      constructor
      · rintro ((hr | hc) | ⟨x, hx, hxc⟩)
        · exact Or.inl hr
        · exact Or.inr ⟨e, List.mem_cons_self e rest, hc⟩
        · exact Or.inr ⟨x, List.mem_cons_of_mem e hx, hxc⟩
      · rintro (hr | ⟨x, hx, hxc⟩)
        · exact Or.inl (Or.inl hr)
        · rcases List.mem_cons.mp hx with hxe | hxr
          · subst hxe; exact Or.inl (Or.inr hxc)
          · exact Or.inr ⟨x, hxr, hxc⟩

/-- A failing consumer run fails with `ExpectedParent`, on some non-root
message with an unresolvable parent path. -/
theorem consumeLoop_error_char :
    ∀ (msgs : List Entry) (st : CState) (err : Error),
      consumeLoop st msgs = Except.error err →
      err = Error.expectedParent ∧
        ∃ e ∈ msgs, e.path = [] ∧ ¬(e.kind = NodeKind.dir ∧ e.depth = 0) := by
  intro msgs
  induction msgs with
  | nil =>
    intro st err h
    simp only [consumeLoop] at h
    cases h
  | cons e rest ih =>
    intro st err h
    simp only [consumeLoop] at h
    cases hstep : consumeStep st e with
    | error err' =>
      rw [hstep] at h
      injection h with h'
      obtain ⟨h1, h2, h3⟩ := consumeStep_error st e err' hstep
      exact ⟨h'.symm.trans h1, e, List.mem_cons_self e rest, h2, h3⟩
    | ok st1 =>
      simp only [hstep] at h
      obtain ⟨h1, x, hx, h2⟩ := ih st1 err h
      exact ⟨h1, x, List.mem_cons_of_mem e hx, h2⟩

/-- An entry with an unresolvable parent path that is neither the root
directory nor a duplicate hard link makes the consumer step fail. -/
theorem consumeStep_bad (st : CState) (e : Entry)
    (hnl : nlinkOf e ≤ 1) (hpath : e.path = [])
    (hnr : ¬(e.kind = NodeKind.dir ∧ e.depth = 0)) :
    consumeStep st e = Except.error Error.expectedParent := by
  have hcond : ¬((Node.ofEntry e).is_dir = true ∧ (Node.ofEntry e).depth = 0) := by
    rintro ⟨h1, h2⟩
    exact hnr ⟨by simpa [Node.is_dir, Node.ofEntry] using h1, by simpa [Node.ofEntry] using h2⟩
  have hofi : (Node.ofEntry e).inode = e.inode := rfl
  obtain ⟨s', hs'⟩ :
      ∃ s', dedupInode (ensureDirBranch st (Node.ofEntry e)) (Node.ofEntry e) = some s' := by
    unfold dedupInode
    rw [hofi]
    cases hei : e.inode with
    | none => exact ⟨_, rfl⟩
    | some i =>
      have hgt : ¬ i.nlink > 1 := by
        have hnn : nlinkOf e = i.nlink := by rw [nlinkOf, hei]
        omega
      exact ⟨ensureDirBranch st (Node.ofEntry e), by simp [hgt]⟩
  have hpp : (Node.ofEntry e).parent_path = none := by
    unfold Node.parent_path
    rw [if_pos (by simpa [Node.ofEntry] using hpath)]
  simp only [consumeStep, if_neg hcond, hs', attachToParent, hpp]

/-- With no hard-link data in play, a message with an unresolvable parent
path (other than the root directory) always fails the consumer loop. -/
theorem consumeLoop_bad_parent :
    ∀ (msgs : List Entry) (st : CState),
      (∀ e ∈ msgs, nlinkOf e ≤ 1) →
      (∃ e ∈ msgs, e.path = [] ∧ ¬(e.kind = NodeKind.dir ∧ e.depth = 0)) →
      ∃ err, consumeLoop st msgs = Except.error err := by
  intro msgs
  induction msgs with
  | nil =>
    rintro st _ ⟨e, he, _⟩
    exact absurd he (List.not_mem_nil e)
  | cons e rest ih =>
    intro st hnl hbad
    cases hstep : consumeStep st e with
    | error err => exact ⟨err, by simp only [consumeLoop, hstep]⟩
    | ok st1 =>
      rcases hbad with ⟨x, hxmem, hx1, hx2⟩
      rcases List.mem_cons.mp hxmem with hxe | hxr
      · subst hxe
        rw [consumeStep_bad st x (hnl x (List.mem_cons_self x rest)) hx1 hx2] at hstep
        cases hstep
      · obtain ⟨err, herr⟩ :=
          ih st1 (fun y hy => hnl y (List.mem_cons_of_mem e hy)) ⟨x, hxr, hx1, hx2⟩
        exact ⟨err, by simp only [consumeLoop, hstep, herr]⟩

/-- C6: the operation returns an error exactly under the claimed conditions.
First conjunct: a canonicalization failure, a missing root directory, or the
absence of any depth-0 directory message each force an error return.  Second
conjunct: any error return stems from one of the four listed causes — in
particular filtered-out entries, duplicate hard links and empty directories
never produce an error.  Third conjunct: an unresolvable parent path on a
non-root entry forces an error provided the entry is not discarded by the
hard-link dedup (which the source checks first; a discarded duplicate never
reaches the parent derivation). -/
theorem c6_error_conditions (canonOk metaOk doPrune : Bool) (sorter : Sorter)
    (msgs : List Entry) :
    ((¬ canonOk = true ∨ ¬ metaOk = true ∨
        ¬ ∃ e ∈ msgs, e.kind = NodeKind.dir ∧ e.depth = 0) →
      ∃ err, traverseModel canonOk metaOk doPrune sorter msgs = Outcome.err err) ∧
    (∀ err, traverseModel canonOk metaOk doPrune sorter msgs = Outcome.err err →
      (¬ canonOk = true ∨ ¬ metaOk = true ∨
        (∃ e ∈ msgs, e.path = [] ∧ ¬(e.kind = NodeKind.dir ∧ e.depth = 0)) ∨
        ¬ ∃ e ∈ msgs, e.kind = NodeKind.dir ∧ e.depth = 0)) ∧
    ((canonOk = true ∧ metaOk = true ∧
        (∃ e ∈ msgs, e.path = [] ∧ ¬(e.kind = NodeKind.dir ∧ e.depth = 0)) ∧
        (∀ e ∈ msgs, nlinkOf e ≤ 1)) →
      ∃ err, traverseModel canonOk metaOk doPrune sorter msgs = Outcome.err err) := by
  by_cases hc : canonOk = true
  case neg =>
    refine ⟨fun _ => ⟨Error.ioFailure, ?_⟩, fun err _ => Or.inl hc, fun hh => absurd hh.1 hc⟩
    simp [traverseModel, hc]
  case pos =>
    by_cases hm : metaOk = true
    case neg =>
      refine ⟨fun _ => ⟨Error.dirNotFound, ?_⟩, fun err _ => Or.inr (Or.inl hm),
        fun hh => absurd hh.2.1 hm⟩
      simp [traverseModel, hc, hm]
    case pos =>
      have hun : ∀ (o : Outcome),
          traverseModel canonOk metaOk doPrune sorter msgs = o ↔
          (match consumeLoop initState msgs with
            | Except.error e => Outcome.err e
            | Except.ok st =>
              match st.rootId with
              | none => Outcome.err Error.missingRoot
              | some root =>
                match assembleTree sorter (st.branches.length + 1) st.tree root st.branches with
                | none => Outcome.panicked
                | some (tree, _) =>
                  Outcome.ok (if doPrune then pruneDirectories root tree else tree) root) = o := by
        intro o
        rw [traverseModel, if_neg (by simp [hc]), if_neg (by simp [hm])]
      refine ⟨?_, ?_, ?_⟩
      · rintro (h | h | h)
        · exact absurd hc h
        · exact absurd hm h
        · cases hloop : consumeLoop initState msgs with
          | error err => exact ⟨err, by rw [hun]; simp only [hloop]⟩
          | ok st =>
            have hroot : st.rootId = none := by
              cases hr : st.rootId with
              | none => rfl
              | some r =>
                exfalso
                have := (consumeLoop_rootId msgs initState st hloop).mp (by rw [hr]; rfl)
                rcases this with h0 | hex
                · cases h0
                · exact h hex
            exact ⟨Error.missingRoot, by rw [hun]; simp only [hloop, hroot]⟩
      · intro err herr
        rw [hun] at herr
        cases hloop : consumeLoop initState msgs with
        | error err' =>
          obtain ⟨_, x, hx, hp, hnr⟩ := consumeLoop_error_char msgs initState err' hloop
          exact Or.inr (Or.inr (Or.inl ⟨x, hx, hp, hnr⟩))
        | ok st =>
          simp only [hloop] at herr
          cases hr : st.rootId with
          | none =>
            refine Or.inr (Or.inr (Or.inr ?_))
            intro hex
            have := (consumeLoop_rootId msgs initState st hloop).mpr (Or.inr hex)
            rw [hr] at this
            cases this
          | some root =>
            simp only [hr] at herr
            cases hasm : assembleTree sorter (st.branches.length + 1) st.tree root st.branches with
            | none => simp only [hasm] at herr; cases herr
            | some p => simp only [hasm] at herr; cases herr
      · rintro ⟨_, _, hbad, hnl⟩
        obtain ⟨err, herr⟩ := consumeLoop_bad_parent msgs initState hnl hbad
        exact ⟨err, by rw [hun]; simp only [herr]⟩

/-- Witness for C6: a failed canonicalization errors out, and so does a
non-root entry whose parent path cannot be derived. -/
theorem c6_witness :
    (∃ err, traverseModel false true false none [] = Outcome.err err) ∧
    (∃ err, traverseModel true true false none
        [⟨[0], 0, NodeKind.dir, 0, none⟩, ⟨[], 1, NodeKind.file, 0, none⟩] =
          Outcome.err err) :=
  ⟨(c6_error_conditions false true false none []).1 (Or.inl (by decide)),
   (c6_error_conditions true true false none
      [⟨[0], 0, NodeKind.dir, 0, none⟩, ⟨[], 1, NodeKind.file, 0, none⟩]).2.2
      ⟨rfl, rfl, by decide, by decide⟩⟩

/-- Nodes with equal kinds agree on `is_dir`. -/
theorem is_dir_congr {n1 n2 : Node} (h : n1.kind = n2.kind) : n1.is_dir = n2.is_dir := by
  rw [Node.is_dir, Node.is_dir, h]

/-- A directory identifier is in range (out-of-range slots are file-kind). -/
theorem lt_length_of_is_dir (t : Arena) (id : Nat) (h : (t.get id).is_dir = true) :
    id < t.slots.length := by
  by_contra hn
  have hd : t.slotAt id = defaultSlot := by
    rw [Arena.slotAt, List.getD_eq_default]
    omega
  rw [Arena.get, hd] at h
  cases h

/-- Keys of a sub-index form a sublist of the keys. -/
theorem branchesKeys_sublist {b' b : Branches} (h : List.Sublist b' b) :
    List.Sublist (branchesKeys b') (branchesKeys b) := h.map Prod.fst

/-- Key membership is preserved upward along sub-indices. -/
theorem mem_keys_of_sublist {b' b : Branches} (h : List.Sublist b' b) {p : FsPath}
    (hp : p ∈ branchesKeys b') : p ∈ branchesKeys b :=
  (branchesKeys_sublist h).subset hp

/-- Key distinctness is preserved downward along sub-indices. -/
theorem nodup_keys_of_sublist {b' b : Branches} (h : List.Sublist b' b)
    (hn : (branchesKeys b).Nodup) : (branchesKeys b').Nodup :=
  List.Nodup.sublist (branchesKeys_sublist h) hn

/-- Removing a binding yields a sub-index. -/
theorem branchesRemove_sublist :
    ∀ {b : Branches} {p : FsPath} {v : List Nat} {b' : Branches},
      branchesRemove b p = some (v, b') → List.Sublist b' b := by
  intro b
  induction b with
  | nil => intro p v b' h; cases h
  | cons kv rest ih =>
    intro p v b' h
    unfold branchesRemove at h
    split at h
    · cases h
      exact List.sublist_cons_self kv rest
    · cases hrec : branchesRemove rest p with
      | none => rw [hrec] at h; cases h
      | some pr =>
        rw [hrec] at h
        cases h
        exact List.Sublist.cons₂ kv (ih hrec)

/-- A removable key is present. -/
theorem branchesRemove_mem_keys :
    ∀ {b : Branches} {p : FsPath} {v : List Nat} {b' : Branches},
      branchesRemove b p = some (v, b') → p ∈ branchesKeys b := by
  intro b
  induction b with
  | nil => intro p v b' h; cases h
  | cons kv rest ih =>
    intro p v b' h
    unfold branchesRemove at h
    split at h
    case isTrue heq => rw [branchesKeys]; rw [List.map_cons]; exact heq ▸ List.mem_cons_self _ _
    case isFalse hne =>
      cases hrec : branchesRemove rest p with
      | none => rw [hrec] at h; cases h
      | some pr =>
        rw [branchesKeys, List.map_cons]
        exact List.mem_cons_of_mem _ (ih hrec)

/-- With distinct keys, a removed key is gone from the remainder. -/
theorem branchesRemove_not_mem_keys :
    ∀ {b : Branches} {p : FsPath} {v : List Nat} {b' : Branches},
      (branchesKeys b).Nodup → branchesRemove b p = some (v, b') →
      p ∉ branchesKeys b' := by
  intro b
  induction b with
  | nil => intro p v b' _ h; cases h
  | cons kv rest ih =>
    intro p v b' hn h
    unfold branchesRemove at h
    rw [branchesKeys, List.map_cons] at hn
    split at h
    case isTrue heq =>
      cases h
      intro hmem
      exact (List.nodup_cons.mp hn).1 (heq ▸ hmem)
    case isFalse hne =>
      cases hrec : branchesRemove rest p with
      | none => rw [hrec] at h; cases h
      | some pr =>
        rw [hrec] at h
        cases h
        intro hmem
        rw [branchesKeys, List.map_cons] at hmem
        rcases List.mem_cons.mp hmem with hh | hh
        · exact hne hh.symm
        · exact ih (List.nodup_cons.mp hn).2 hrec hh

/-- Point updates keep the slot-list length. -/
theorem modifySlot_length : ∀ (l : List Slot) (i : Nat) (f : Slot → Slot),
    (modifySlot l i f).length = l.length := by
  intro l
  induction l with
  | nil => intro i f; rfl
  | cons s rest ih =>
    intro i f
    cases i with
    | zero => rfl
    | succ n => simp only [modifySlot, List.length_cons, ih]

/-- Point updates do not touch other indices. -/
theorem modifySlot_getD_ne : ∀ (l : List Slot) (i : Nat) (f : Slot → Slot) (j : Nat)
    (d : Slot), j ≠ i → (modifySlot l i f).getD j d = l.getD j d := by
  intro l
  induction l with
  | nil => intro i f j d _; rfl
  | cons s rest ih =>
    intro i f j d hne
    cases i with
    | zero =>
      cases j with
      | zero => exact absurd rfl hne
      | succ m => simp [modifySlot]
    | succ n =>
      cases j with
      | zero => simp [modifySlot]
      | succ m =>
        simp only [modifySlot, List.getD_cons_succ]
        exact ih n f m d (by omega)

/-- Point updates apply the function at the index, when in range. -/
theorem modifySlot_getD_eq : ∀ (l : List Slot) (i : Nat) (f : Slot → Slot) (d : Slot),
    i < l.length → (modifySlot l i f).getD i d = f (l.getD i d) := by
  intro l
  induction l with
  | nil => intro i f d h; cases h
  | cons s rest ih =>
    intro i f d h
    cases i with
    | zero => rfl
    | succ n =>
      simp only [modifySlot, List.getD_cons_succ]
      exact ih n f d (by simpa using h)

/-- Out-of-range point updates are the identity. -/
theorem modifySlot_oob : ∀ (l : List Slot) (i : Nat) (f : Slot → Slot),
    l.length ≤ i → modifySlot l i f = l := by
  intro l
  induction l with
  | nil => intro i f _; rfl
  | cons s rest ih =>
    intro i f h
    cases i with
    | zero => simp at h
    | succ n => simp only [modifySlot]; rw [ih n f (by simpa using h)]

/-- Size stamping keeps the arena size. -/
theorem setFileSizeAt_length (t : Arena) (i s : Nat) :
    (t.setFileSizeAt i s).slots.length = t.slots.length :=
  modifySlot_length t.slots i _

/-- Size stamping does not touch other slots. -/
theorem slotAt_setFileSizeAt_ne (t : Arena) (i s j : Nat) (h : j ≠ i) :
    (t.setFileSizeAt i s).slotAt j = t.slotAt j :=
  modifySlot_getD_ne t.slots i _ j defaultSlot h

/-- Size stamping rewrites exactly the size field of the target slot. -/
theorem slotAt_setFileSizeAt_eq (t : Arena) (i s : Nat) (h : i < t.slots.length) :
    (t.setFileSizeAt i s).slotAt i =
      { t.slotAt i with data := { (t.slotAt i).data with file_size := some s } } :=
  modifySlot_getD_eq t.slots i _ defaultSlot h

/-- Appending a child keeps the arena size. -/
theorem appendKid_length (t : Arena) (par k : Nat) :
    (t.appendKid par k).slots.length = t.slots.length :=
  modifySlot_length t.slots par _

/-- Appending a child does not touch other slots. -/
theorem slotAt_appendKid_ne (t : Arena) (par k j : Nat) (h : j ≠ par) :
    (t.appendKid par k).slotAt j = t.slotAt j :=
  modifySlot_getD_ne t.slots par _ j defaultSlot h

/-- Appending a child extends exactly the child list of the target slot. -/
theorem slotAt_appendKid_eq (t : Arena) (par k : Nat) (h : par < t.slots.length) :
    (t.appendKid par k).slotAt par =
      { t.slotAt par with kids := (t.slotAt par).kids ++ [k] } :=
  modifySlot_getD_eq t.slots par _ defaultSlot h

/-- Appending a child never changes any payload. -/
theorem appendKid_get (t : Arena) (par k id : Nat) :
    (t.appendKid par k).get id = t.get id := by
  by_cases hid : id = par
  · subst hid
    by_cases hr : id < t.slots.length
    · rw [Arena.get, slotAt_appendKid_eq t id k hr]
      rfl
    · rw [Arena.get, Arena.appendKid]
      rw [show (⟨modifySlot t.slots id fun sl => { sl with kids := sl.kids ++ [k] }⟩ : Arena).slotAt id
          = t.slotAt id from by
        rw [Arena.slotAt, Arena.slotAt]
        rw [modifySlot_oob t.slots id _ (by omega)]]
      rfl
  · rw [Arena.get, slotAt_appendKid_ne t par k id hid]
    rfl

/-- Folding child appends touches no other slot. -/
theorem foldl_appendKid_slotAt_ne :
    ∀ (cs : List Nat) (t : Arena) (par j : Nat), j ≠ par →
      ((cs.foldl (fun a k => a.appendKid par k) t).slotAt j) = t.slotAt j := by
  intro cs
  induction cs with
  | nil => intro t par j _; rfl
  | cons c rest ih =>
    intro t par j h
    rw [List.foldl_cons, ih (t.appendKid par c) par j h, slotAt_appendKid_ne t par c j h]

/-- Folding child appends keeps the arena size. -/
theorem foldl_appendKid_length :
    ∀ (cs : List Nat) (t : Arena) (par : Nat),
      (cs.foldl (fun a k => a.appendKid par k) t).slots.length = t.slots.length := by
  intro cs
  induction cs with
  | nil => intro t par; rfl
  | cons c rest ih =>
    intro t par
    rw [List.foldl_cons, ih (t.appendKid par c) par, appendKid_length]

/-- Folding child appends concatenates them onto the target's child list. -/
theorem foldl_appendKid_kids :
    ∀ (cs : List Nat) (t : Arena) (par : Nat), par < t.slots.length →
      (cs.foldl (fun a k => a.appendKid par k) t).kidsOf par = t.kidsOf par ++ cs := by
  intro cs
  induction cs with
  | nil => intro t par _; simp
  | cons c rest ih =>
    intro t par h
    rw [List.foldl_cons, ih (t.appendKid par c) par (by rw [appendKid_length]; exact h)]
    rw [Arena.kidsOf, Arena.kidsOf, slotAt_appendKid_eq t par c h]
    simp

/-- Folding child appends never changes any payload. -/
theorem foldl_appendKid_get :
    ∀ (cs : List Nat) (t : Arena) (par id : Nat),
      (cs.foldl (fun a k => a.appendKid par k) t).get id = t.get id := by
  intro cs
  induction cs with
  | nil => intro t par id; rfl
  | cons c rest ih =>
    intro t par id
    rw [List.foldl_cons, ih (t.appendKid par c) par id, appendKid_get]

/-- Appending a child never changes a removal flag. -/
theorem appendKid_removed (t : Arena) (par k j : Nat) :
    ((t.appendKid par k).slotAt j).removed = (t.slotAt j).removed := by
  by_cases hj : j = par
  · subst hj
    by_cases hr : j < t.slots.length
    · rw [slotAt_appendKid_eq t j k hr]
    · rw [Arena.appendKid]
      rw [show (⟨modifySlot t.slots j fun sl => { sl with kids := sl.kids ++ [k] }⟩ : Arena).slotAt j
          = t.slotAt j from by
        rw [Arena.slotAt, Arena.slotAt]
        rw [modifySlot_oob t.slots j _ (by omega)]]
  · rw [slotAt_appendKid_ne t par k j hj]

/-- Folding child appends never changes a removal flag. -/
theorem foldl_appendKid_removed :
    ∀ (cs : List Nat) (t : Arena) (par j : Nat),
      (((cs.foldl (fun a k => a.appendKid par k) t)).slotAt j).removed =
        (t.slotAt j).removed := by
  intro cs
  induction cs with
  | nil => intro t par j; rfl
  | cons c rest ih =>
    intro t par j
    rw [List.foldl_cons, ih (t.appendKid par c) par j, appendKid_removed]

/-- The configured sort is a permutation of the children. -/
theorem sortChildren_perm (sorter : Sorter) (t : Arena) (cs : List Nat) :
    (sortChildren sorter t cs).Perm cs := by
  cases sorter with
  | none => exact List.Perm.refl cs
  | some f => exact List.mergeSort_perm cs _

/-- A phase that changes nothing but the index is an `AsmStep`. -/
theorem asmStep_of_sub {t : Arena} {b b' : Branches} (h : List.Sublist b' b) : AsmStep t t b b' where
  len := rfl
  sub := h
  core := fun _ => ⟨rfl, rfl, rfl, rfl, rfl⟩
  frame := fun _ hne => absurd rfl hne
  newkids := fun _ _ hk => Or.inl hk
  good := fun _ => Or.inl rfl
  stamp := fun _ hne => absurd rfl hne

/-- Two consecutive assembly phases compose into one. -/
theorem asmStep_trans {t t1 t2 : Arena} {b b1 b2 : Branches}
    (S1 : AsmStep t t1 b b1) (S2 : AsmStep t1 t2 b1 b2) : AsmStep t t2 b b2 where
  len := S2.len.trans S1.len
  sub := S2.sub.trans S1.sub
  core := by
    intro id
    obtain ⟨p1, d1, k1, i1, r1⟩ := S1.core id
    obtain ⟨p2, d2, k2, i2, r2⟩ := S2.core id
    exact ⟨p2.trans p1, d2.trans d1, k2.trans k1, i2.trans i1, r2.trans r1⟩
  frame := by
    intro id hne
    by_cases h1 : t1.slotAt id = t.slotAt id
    · have h2 : t2.slotAt id ≠ t1.slotAt id := fun hh => hne (hh.trans h1)
      obtain ⟨fd, fm, fn⟩ := S2.frame id h2
      obtain ⟨p1, _, k1, _, _⟩ := S1.core id
      refine ⟨?_, ?_, ?_⟩
      · rw [← is_dir_congr k1]
        exact fd
      · exact mem_keys_of_sublist S1.sub (by rw [← p1]; exact fm)
      · intro hmem
        exact fn (by rw [p1]; exact hmem)
    · obtain ⟨fd, fm, fn⟩ := S1.frame id h1
      exact ⟨fd, fm, fun hmem => fn (mem_keys_of_sublist S2.sub hmem)⟩
  newkids := by
    intro id k hk
    rcases S2.newkids id k hk with hk1 | hdir2
    · rcases S1.newkids id k hk1 with hk0 | hdir1
      · exact Or.inl hk0
      · refine Or.inr (fun hd => ?_)
        obtain ⟨m1, m2⟩ := hdir1 hd
        exact ⟨m1, fun hmem => m2 (mem_keys_of_sublist S2.sub hmem)⟩
    · refine Or.inr (fun hd => ?_)
      obtain ⟨pk, _, kk, _, _⟩ := S1.core k
      have hd1 : (t1.get k).is_dir = true := by rw [is_dir_congr kk]; exact hd
      obtain ⟨m1, m2⟩ := hdir2 hd1
      refine ⟨mem_keys_of_sublist S1.sub (by rw [← pk]; exact m1), ?_⟩
      intro hmem
      exact m2 (by rw [pk]; exact hmem)
  good := by
    intro id
    by_cases h2 : t2.slotAt id = t1.slotAt id
    · rcases S1.good id with h1 | h1
      · exact Or.inl (h2.trans h1)
      · refine Or.inr (fun hpre => ?_)
        obtain ⟨⟨hsum, hpos⟩, hks⟩ := h1 hpre
        have hget : t2.get id = t1.get id := by rw [Arena.get, Arena.get, h2]
        have hkids : t2.kidsOf id = t1.kidsOf id := by rw [Arena.kidsOf, Arena.kidsOf, h2]
        refine ⟨⟨?_, ?_⟩, ?_⟩
        · have hb2 : t2.bytesOf id = t1.bytesOf id := by rw [Arena.bytesOf, Arena.bytesOf, hget]
          rw [hb2, hkids, hsum]
          apply congrArg List.sum
          apply List.map_congr_left
          intro k hkmem
          by_cases hkc : t2.slotAt k = t1.slotAt k
          · rw [Arena.bytesOf, Arena.bytesOf, Arena.get, Arena.get, hkc]
          · obtain ⟨fd, fm, _⟩ := S2.frame k hkc
            exact absurd fm (hks k hkmem fd)
        · intro s hs
          rw [hget] at hs
          exact hpos s hs
        · intro k hkmem hkdir
          rw [hkids] at hkmem
          obtain ⟨pk, _, kk, _, _⟩ := S2.core k
          have hd1 : (t1.get k).is_dir = true := by rw [← is_dir_congr kk]; exact hkdir
          have hnot := hks k hkmem hd1
          intro hmem
          apply hnot
          have hmem1 : (t2.get k).path ∈ branchesKeys b1 := mem_keys_of_sublist S2.sub hmem
          rwa [pk] at hmem1
    · rcases S2.good id with h2' | h2'
      · exact absurd h2' h2
      · by_cases h1 : t1.slotAt id = t.slotAt id
        · refine Or.inr (fun hpre => ?_)
          have hpre1 : PreSlot t1 id := by
            obtain ⟨ha, hb⟩ := hpre
            constructor
            · rw [Arena.get, h1]
              exact ha
            · rw [Arena.kidsOf, h1]
              exact hb
          exact h2' hpre1
        · exfalso
          obtain ⟨_, _, fn1⟩ := S1.frame id h1
          obtain ⟨_, fm2, _⟩ := S2.frame id h2
          obtain ⟨p1, _, _, _, _⟩ := S1.core id
          apply fn1
          rw [← p1]
          exact fm2
  stamp := by
    intro id hch
    by_cases h2 : (t2.get id).file_size = (t1.get id).file_size
    · have h1 : (t1.get id).file_size ≠ (t.get id).file_size := fun he => hch (h2.trans he)
      obtain ⟨s, hs, hv⟩ := S1.stamp id h1
      exact ⟨s, hs, h2.trans hv⟩
    · exact S2.stamp id h2

/-- Effect of the child loop of `assemble_tree`, given the behaviour of the
recursive call on directory children: it is an assembly phase whose running
total grows by exactly the children's final stored byte counts, and every
directory child's pending entry gets consumed. -/
theorem assembleChildren_master
    (rec : Arena → Nat → Branches → Option (Arena × Branches))
    (hrec : ∀ (t : Arena) (c : Nat) (b : Branches) (t' : Arena) (b' : Branches),
      (branchesKeys b).Nodup → (t.get c).is_dir = true → rec t c b = some (t', b') →
      AsmStep t t' b b' ∧ AsmOut t c b t' b') :
    ∀ (cs : List Nat) (t : Arena) (b : Branches) (acc : Nat) (t' : Arena)
      (b' : Branches) (acc' : Nat),
      (branchesKeys b).Nodup →
      assembleChildren rec t b cs acc = some (t', b', acc') →
      AsmStep t t' b b' ∧
      acc' = acc + (cs.map t'.bytesOf).sum ∧
      (∀ k ∈ cs, (t.get k).is_dir = true →
        (t.get k).path ∈ branchesKeys b ∧ (t.get k).path ∉ branchesKeys b') := by
  intro cs
  induction cs with
  | nil =>
    intro t b acc t' b' acc' _ h
    simp only [assembleChildren] at h
    injection h with h'
    rw [Prod.mk.injEq, Prod.mk.injEq] at h'
    obtain ⟨h1, h2, h3⟩ := h'
    subst h1
    subst h2
    subst h3
    exact ⟨asmStep_of_sub (List.Sublist.refl b), by simp,
      fun k hk => absurd hk (List.not_mem_nil k)⟩
  | cons c rest ih =>
    intro t b acc t' b' acc' hn h
    simp only [assembleChildren] at h
    by_cases hdir : (t.get c).is_dir = true
    · rw [if_pos hdir] at h
      cases hr : rec t c b with
      | none => rw [hr] at h; cases h
      | some p =>
        obtain ⟨t1, b1⟩ := p
        simp only [hr] at h
        obtain ⟨S1, Out1⟩ := hrec t c b t1 b1 hn hdir hr
        have hn1 : (branchesKeys b1).Nodup := nodup_keys_of_sublist S1.sub hn
        obtain ⟨S2, hacc, K2⟩ := ih t1 b1 (acc + t1.bytesOf c) t' b' acc' hn1 h
        obtain ⟨children, br1, hrem, hpin, hpout, _⟩ := Out1
        have hstable : t'.slotAt c = t1.slotAt c := by
          by_cases hc : t'.slotAt c = t1.slotAt c
          · exact hc
          · exfalso
            obtain ⟨_, fm, _⟩ := S2.frame c hc
            obtain ⟨pc, _, _, _, _⟩ := S1.core c
            rw [pc] at fm
            exact hpout fm
        have hbytes : t'.bytesOf c = t1.bytesOf c := by
          rw [Arena.bytesOf, Arena.bytesOf, Arena.get, Arena.get, hstable]
        refine ⟨asmStep_trans S1 S2, ?_, ?_⟩
        · rw [hacc, List.map_cons, List.sum_cons, hbytes]
          omega
        · intro k hk hkdir
          rcases List.mem_cons.mp hk with hke | hkr
          · subst hke
            exact ⟨hpin, fun hmem => hpout (mem_keys_of_sublist S2.sub hmem)⟩
          · obtain ⟨pk, _, kk, _, _⟩ := S1.core k
            have hkdir1 : (t1.get k).is_dir = true := by rw [is_dir_congr kk]; exact hkdir
            obtain ⟨m1, m2⟩ := K2 k hkr hkdir1
            rw [pk] at m1 m2
            exact ⟨mem_keys_of_sublist S1.sub m1, m2⟩
    · rw [if_neg hdir] at h
      obtain ⟨S2, hacc, K2⟩ := ih t b (acc + t.bytesOf c) t' b' acc' hn h
      have hstable : t'.slotAt c = t.slotAt c := by
        by_cases hc : t'.slotAt c = t.slotAt c
        · exact hc
        · obtain ⟨fd, _, _⟩ := S2.frame c hc
          exact absurd fd hdir
      have hbytes : t'.bytesOf c = t.bytesOf c := by
        rw [Arena.bytesOf, Arena.bytesOf, Arena.get, Arena.get, hstable]
      refine ⟨S2, ?_, ?_⟩
      · rw [hacc, List.map_cons, List.sum_cons, hbytes]
        omega
      · intro k hk hkdir
        rcases List.mem_cons.mp hk with hke | hkr
        · subst hke
          exact absurd hkdir hdir
        · exact K2 k hkr hkdir

/-- The master lemma for `assemble_tree`: a successful call on a directory,
over an index with distinct keys, is an assembly phase and satisfies the
per-node output contract. -/
theorem assembleTree_master (sorter : Sorter) :
    ∀ (fuel : Nat) (t : Arena) (c : Nat) (b : Branches) (t' : Arena) (b' : Branches),
      (branchesKeys b).Nodup → (t.get c).is_dir = true →
      assembleTree sorter fuel t c b = some (t', b') →
      AsmStep t t' b b' ∧ AsmOut t c b t' b' := by
  intro fuel
  induction fuel with
  | zero =>
    intro t c b t' b' _ _ h
    cases h
  | succ fuel ih =>
    intro t c b t' b' hn hdir h
    simp only [assembleTree] at h
    cases hrem : branchesRemove b (t.get c).path with
    | none => rw [hrem] at h; cases h
    | some pr =>
      obtain ⟨children, b1⟩ := pr
      simp only [hrem] at h
      cases hch : assembleChildren (assembleTree sorter fuel) t b1 children 0 with
      | none => rw [hch] at h; cases h
      | some res =>
        obtain ⟨t2, b2, dirSize⟩ := res
        simp only [hch] at h
        set T3 : Arena := if dirSize > 0 then t2.setFileSizeAt c dirSize else t2 with hT3
        set sorted : List Nat := sortChildren sorter T3 children with hsortdef
        set T4 : Arena := sorted.foldl (fun tt k => tt.appendKid c k) T3 with hT4
        injection h with h'
        rw [Prod.mk.injEq] at h'
        obtain ⟨ht', hb'⟩ := h'
        subst ht'
        subst hb'
        have hsubr : List.Sublist b1 b := branchesRemove_sublist hrem
        have hn1 : (branchesKeys b1).Nodup := nodup_keys_of_sublist hsubr hn
        have hpin : (t.get c).path ∈ branchesKeys b := branchesRemove_mem_keys hrem
        have hpout1 : (t.get c).path ∉ branchesKeys b1 := branchesRemove_not_mem_keys hn hrem
        obtain ⟨S, hacc, K⟩ :=
          assembleChildren_master (assembleTree sorter fuel) ih children t b1 0 t2 b2 dirSize
            hn1 hch
        have hacc0 : dirSize = (children.map t2.bytesOf).sum := by simpa using hacc
        have hcrange : c < t.slots.length := lt_length_of_is_dir t c hdir
        have hcrange2 : c < t2.slots.length := by rw [S.len]; exact hcrange
        have hstable : t2.slotAt c = t.slotAt c := by
          by_cases hc : t2.slotAt c = t.slotAt c
          · exact hc
          · exfalso
            obtain ⟨_, fm, _⟩ := S.frame c hc
            exact hpout1 fm
        have hcnotin : c ∉ children := by
          intro hcmem
          obtain ⟨m1, _⟩ := K c hcmem hdir
          exact hpout1 m1
        have hpout2 : (t.get c).path ∉ branchesKeys b2 :=
          fun hmem => hpout1 (mem_keys_of_sublist S.sub hmem)
        -- facts about the stamping phase (t2 → T3)
        have hslot3 : ∀ j, j ≠ c → T3.slotAt j = t2.slotAt j := by
          intro j hj
          rw [hT3]
          by_cases hdz : dirSize > 0
          · rw [if_pos hdz]
            exact slotAt_setFileSizeAt_ne t2 c dirSize j hj
          · rw [if_neg hdz]
        have hslot3c : ∃ fsz, T3.slotAt c =
            { t2.slotAt c with data := { (t2.slotAt c).data with file_size := fsz } } := by
          rw [hT3]
          by_cases hdz : dirSize > 0
          · exact ⟨some dirSize, by rw [if_pos hdz]; exact slotAt_setFileSizeAt_eq t2 c dirSize hcrange2⟩
          · exact ⟨(t2.slotAt c).data.file_size, by rw [if_neg hdz]⟩
        have hfs3c : (T3.get c).file_size =
            (if dirSize > 0 then some dirSize else (t2.get c).file_size) := by
          rw [hT3]
          by_cases hdz : dirSize > 0
          · rw [if_pos hdz, if_pos hdz, Arena.get, slotAt_setFileSizeAt_eq t2 c dirSize hcrange2]
          · rw [if_neg hdz, if_neg hdz]
        have hlen3 : T3.slots.length = t2.slots.length := by
          rw [hT3]
          by_cases hdz : dirSize > 0
          · rw [if_pos hdz]
            exact setFileSizeAt_length t2 c dirSize
          · rw [if_neg hdz]
        have hkid3 : ∀ j, T3.kidsOf j = t2.kidsOf j := by
          intro j
          by_cases hj : j = c
          · subst hj
            obtain ⟨fsz, hf⟩ := hslot3c
            rw [Arena.kidsOf, Arena.kidsOf, hf]
          · rw [Arena.kidsOf, Arena.kidsOf, hslot3 j hj]
        have hcore3 : ∀ j, (T3.get j).path = (t2.get j).path ∧
            (T3.get j).depth = (t2.get j).depth ∧ (T3.get j).kind = (t2.get j).kind ∧
            (T3.get j).inode = (t2.get j).inode ∧
            (T3.slotAt j).removed = (t2.slotAt j).removed := by
          intro j
          by_cases hj : j = c
          · subst hj
            obtain ⟨fsz, hf⟩ := hslot3c
            rw [Arena.get, Arena.get, hf]
            exact ⟨rfl, rfl, rfl, rfl, rfl⟩
          · rw [Arena.get, Arena.get, hslot3 j hj]
            exact ⟨rfl, rfl, rfl, rfl, rfl⟩
        -- facts about the appending phase (T3 → T4)
        have hslot4 : ∀ j, j ≠ c → T4.slotAt j = T3.slotAt j := by
          intro j hj
          rw [hT4]
          exact foldl_appendKid_slotAt_ne sorted T3 c j hj
        have hget4 : ∀ j, T4.get j = T3.get j := by
          intro j
          rw [hT4]
          exact foldl_appendKid_get sorted T3 c j
        have hrem4 : ∀ j, (T4.slotAt j).removed = (T3.slotAt j).removed := by
          intro j
          rw [hT4]
          exact foldl_appendKid_removed sorted T3 c j
        have hlen4 : T4.slots.length = T3.slots.length := by
          rw [hT4]
          exact foldl_appendKid_length sorted T3 c
        have hkid4c : T4.kidsOf c = t2.kidsOf c ++ sorted := by
          rw [hT4, foldl_appendKid_kids sorted T3 c (by rw [hlen3]; exact hcrange2), hkid3 c]
        have hkid4 : ∀ j, j ≠ c → T4.kidsOf j = t2.kidsOf j := by
          intro j hj
          rw [Arena.kidsOf, hslot4 j hj, ← Arena.kidsOf, hkid3 j]
        have hperm : sorted.Perm children := by
          rw [hsortdef]
          exact sortChildren_perm sorter T3 children
        -- the combined phase from t2 to T4 only changed slot c
        have hslot42 : ∀ j, j ≠ c → T4.slotAt j = t2.slotAt j := by
          intro j hj
          rw [hslot4 j hj, hslot3 j hj]
        -- children keep their stored sizes from t2 to T4 (none of them is c)
        have hbyteskeep : ∀ k ∈ children, T4.bytesOf k = t2.bytesOf k := by
          intro k hk
          have hkc : k ≠ c := fun hkc => hcnotin (hkc ▸ hk)
          rw [Arena.bytesOf, Arena.bytesOf, Arena.get, Arena.get, hslot42 k hkc]
        have hsum4 : (children.map T4.bytesOf).sum = dirSize := by
          rw [hacc0]
          exact congrArg List.sum (List.map_congr_left hbyteskeep)
        have hsum4sorted : (sorted.map T4.bytesOf).sum = dirSize := by
          rw [← hsum4]
          exact List.Perm.sum_eq (hperm.map T4.bytesOf)
        have hfs2c : (t2.get c).file_size = (t.get c).file_size := by
          rw [Arena.get, Arena.get, hstable]
        have hfs4c : (T4.get c).file_size =
            (if dirSize > 0 then some dirSize else (t.get c).file_size) := by
          rw [hget4 c, hfs3c, hfs2c]
        have hkid2c : t2.kidsOf c = t.kidsOf c := by
          rw [Arena.kidsOf, Arena.kidsOf, hstable]
        -- core fields from t to T4
        have hcore : ∀ j, (T4.get j).path = (t.get j).path ∧
            (T4.get j).depth = (t.get j).depth ∧ (T4.get j).kind = (t.get j).kind ∧
            (T4.get j).inode = (t.get j).inode ∧
            (T4.slotAt j).removed = (t.slotAt j).removed := by
          intro j
          obtain ⟨a1, a2, a3, a4, a5⟩ := S.core j
          obtain ⟨c1, c2, c3, c4, c5⟩ := hcore3 j
          rw [hget4 j, hrem4 j]
          exact ⟨c1.trans a1, c2.trans a2, c3.trans a3, c4.trans a4, c5.trans a5⟩
        refine ⟨?_, ?_⟩
        · refine ⟨?_, ?_, hcore, ?_, ?_, ?_, ?_⟩
          · rw [hlen4, hlen3, S.len]
          · exact S.sub.trans hsubr
          · -- frame
            intro id hne
            by_cases hid : id = c
            · subst hid
              exact ⟨hdir, hpin, hpout2⟩
            · rw [hslot42 id hid] at hne
              obtain ⟨fd, fm, fn⟩ := S.frame id hne
              exact ⟨fd, mem_keys_of_sublist hsubr fm, fn⟩
          · -- newkids
            intro id k hk
            by_cases hid : id = c
            · subst hid
              rw [hkid4c, hkid2c] at hk
              rcases List.mem_append.mp hk with hk | hk
              · exact Or.inl hk
              · refine Or.inr (fun hd => ?_)
                obtain ⟨m1, m2⟩ := K k (hperm.subset hk) hd
                exact ⟨mem_keys_of_sublist hsubr m1, m2⟩
            · rw [hkid4 id hid] at hk
              rcases S.newkids id k hk with hk0 | hk0
              · exact Or.inl hk0
              · refine Or.inr (fun hd => ?_)
                obtain ⟨m1, m2⟩ := hk0 hd
                exact ⟨mem_keys_of_sublist hsubr m1, m2⟩
          · -- good
            intro id
            by_cases hid : id = c
            · subst hid
              refine Or.inr (fun hpre => ?_)
              obtain ⟨hpf, hpk⟩ := hpre
              have hkids : T4.kidsOf id = sorted := by
                rw [hkid4c, hkid2c, hpk, List.nil_append]
              constructor
              · constructor
                · rw [Arena.bytesOf, hfs4c, hkids]
                  by_cases hdz : dirSize > 0
                  · rw [if_pos hdz]
                    rw [hsum4sorted]
                    rfl
                  · rw [if_neg hdz, hpf, hsum4sorted]
                    simp
                    omega
                · intro s hs
                  rw [hfs4c] at hs
                  by_cases hdz : dirSize > 0
                  · rw [if_pos hdz] at hs
                    injection hs with hs'
                    omega
                  · rw [if_neg hdz, hpf] at hs
                    cases hs
              · intro k hkmem hkdir
                rw [hkids] at hkmem
                have hkch : k ∈ children := hperm.subset hkmem
                obtain ⟨p4, _, k4, _, _⟩ := hcore k
                have hdirt : (t.get k).is_dir = true := by
                  rw [← is_dir_congr k4]
                  exact hkdir
                obtain ⟨_, m2⟩ := K k hkch hdirt
                rw [p4]
                exact m2
            · rcases S.good id with hgd | hgd
              · left
                rw [hslot42 id hid, hgd]
              · refine Or.inr (fun hpre => ?_)
                obtain ⟨⟨hsum, hpos⟩, hks⟩ := hgd hpre
                have hslid : T4.slotAt id = t2.slotAt id := hslot42 id hid
                have hgetid : T4.get id = t2.get id := by rw [Arena.get, Arena.get, hslid]
                have hkidsid : T4.kidsOf id = t2.kidsOf id := by
                  rw [Arena.kidsOf, Arena.kidsOf, hslid]
                have hcnot2 : c ∉ t2.kidsOf id := by
                  intro hcmem
                  rcases S.newkids id c hcmem with hk0 | hk0
                  · rw [hpre.2] at hk0
                    exact absurd hk0 (List.not_mem_nil c)
                  · exact hpout1 (hk0 hdir).1
                constructor
                · constructor
                  · have hb4 : T4.bytesOf id = t2.bytesOf id := by
                      rw [Arena.bytesOf, Arena.bytesOf, hgetid]
                    rw [hb4, hkidsid, hsum]
                    apply congrArg List.sum
                    apply List.map_congr_left
                    intro k hkmem
                    have hkc : k ≠ c := fun hkc => hcnot2 (hkc ▸ hkmem)
                    rw [Arena.bytesOf, Arena.bytesOf, Arena.get, Arena.get, hslot42 k hkc]
                  · intro s hs
                    rw [hgetid] at hs
                    exact hpos s hs
                · intro k hkmem hkdir
                  rw [hkidsid] at hkmem
                  obtain ⟨p4, _, k4, _, _⟩ := hcore k
                  obtain ⟨a1, _, a3, _, _⟩ := S.core k
                  have hkdir2 : (t2.get k).is_dir = true := by
                    rw [is_dir_congr a3, ← is_dir_congr k4]
                    exact hkdir
                  have := hks k hkmem hkdir2
                  rw [p4, ← a1]
                  exact this
          · -- stamp
            intro id hch
            by_cases hid : id = c
            · subst hid
              rw [hfs4c] at hch ⊢
              by_cases hdz : dirSize > 0
              · rw [if_pos hdz]
                exact ⟨dirSize, hdz, rfl⟩
              · rw [if_neg hdz] at hch
                exact absurd rfl hch
            · have hgid : T4.get id = t2.get id := by
                rw [Arena.get, Arena.get, hslot42 id hid]
              rw [hgid] at hch ⊢
              exact S.stamp id hch
        · -- AsmOut
          refine ⟨children, b1, hrem, hpin, hpout2, sorted, hperm, ?_, ?_⟩
          · rw [hkid4c, hkid2c]
          · rw [hfs4c, hsum4]

/-- Containment in the index is key membership. -/
theorem branchesContains_iff (b : Branches) (p : FsPath) :
    branchesContains b p = true ↔ p ∈ branchesKeys b := by
  simp [branchesContains, branchesKeys, List.any_eq_true, List.mem_map]

/-- Key membership after an insert. -/
theorem mem_keys_branchesInsert (b : Branches) (p q : FsPath) (v : List Nat) :
    q ∈ branchesKeys (branchesInsert b p v) ↔ q ∈ branchesKeys b ∨ q = p := by
  induction b with
  | nil => simp [branchesInsert, branchesKeys]
  | cons kv rest ih =>
    rw [branchesInsert]
    by_cases he : kv.fst = p
    · rw [if_pos he]
      simp only [branchesKeys, List.map_cons, List.mem_cons] at ih ⊢
      rw [he]
      tauto
    · rw [if_neg he]
      simp only [branchesKeys, List.map_cons, List.mem_cons] at ih ⊢
      rw [ih]
      tauto

/-- An insert keeps the keys pairwise distinct. -/
theorem nodup_keys_branchesInsert (b : Branches) (p : FsPath) (v : List Nat)
    (hn : (branchesKeys b).Nodup) : (branchesKeys (branchesInsert b p v)).Nodup := by
  induction b with
  | nil => simp [branchesInsert, branchesKeys]
  | cons kv rest ih =>
    rw [branchesKeys, List.map_cons] at hn
    obtain ⟨h1, h2⟩ := List.nodup_cons.mp hn
    rw [branchesInsert]
    by_cases he : kv.fst = p
    · rw [if_pos he]
      rw [branchesKeys, List.map_cons]
      exact List.nodup_cons.mpr ⟨by rw [← he]; exact h1, h2⟩
    · rw [if_neg he]
      rw [branchesKeys, List.map_cons]
      refine List.nodup_cons.mpr ⟨?_, ih h2⟩
      intro hmem
      rcases (mem_keys_branchesInsert rest p kv.fst v).mp hmem with hm | hm
      · exact h1 hm
      · exact he hm

/-- A push keeps the key list unchanged. -/
theorem branchesPush_keys :
    ∀ {b : Branches} {p : FsPath} {id : Nat} {b' : Branches},
      branchesPush b p id = some b' → branchesKeys b' = branchesKeys b := by
  intro b
  induction b with
  | nil => intro p id b' h; cases h
  | cons kv rest ih =>
    intro p id b' h
    rw [branchesPush] at h
    by_cases he : kv.fst = p
    · rw [if_pos he] at h
      cases h
      rfl
    · rw [if_neg he] at h
      cases hrec : branchesPush rest p id with
      | none => rw [hrec] at h; cases h
      | some rest' =>
        rw [hrec] at h
        cases h
        have hk := ih hrec
        simp only [branchesKeys, List.map_cons] at hk ⊢
        rw [hk]

/-- Where each slot of an extended arena comes from. -/
theorem newNode_slotAt (t : Arena) (n : Node) (id : Nat) :
    ((t.newNode n).1.slotAt id) =
      if id < t.slots.length then t.slotAt id
      else if id = t.slots.length then ⟨n, [], false⟩ else defaultSlot := by
  have hrw : (t.newNode n).1.slotAt id =
      (t.slots ++ [(⟨n, [], false⟩ : Slot)]).getD id defaultSlot := rfl
  rw [hrw]
  by_cases h1 : id < t.slots.length
  · rw [if_pos h1]
    exact List.getD_append _ _ _ _ h1
  · rw [if_neg h1]
    by_cases h2 : id = t.slots.length
    · rw [if_pos h2]
      subst h2
      rw [List.getD_append_right _ _ _ _ (le_refl _)]
      simp
    · rw [if_neg h2]
      rw [List.getD_append_right _ _ _ _ (by omega)]
      apply List.getD_eq_default
      simp only [List.length_cons, List.length_nil]
      omega

/-- An extended arena still has no child links. -/
theorem newNode_kids_inv (t : Arena) (n : Node) (h : ∀ id, t.kidsOf id = []) :
    ∀ id, ((t.newNode n).1).kidsOf id = [] := by
  intro id
  rw [Arena.kidsOf, newNode_slotAt]
  by_cases h1 : id < t.slots.length
  · rw [if_pos h1]
    exact h id
  · rw [if_neg h1]
    by_cases h2 : id = t.slots.length
    · rw [if_pos h2]
    · rw [if_neg h2]
      rfl

/-- Payloads of existing slots survive an extension. -/
theorem newNode_get_lt (t : Arena) (n : Node) (id : Nat) (h : id < t.slots.length) :
    (t.newNode n).1.get id = t.get id := by
  rw [Arena.get, Arena.get, newNode_slotAt, if_pos h]

/-- The payload of the fresh slot. -/
theorem newNode_get_self (t : Arena) (n : Node) :
    (t.newNode n).1.get (t.newNode n).2 = n := by
  have h2 : (t.newNode n).2 = t.slots.length := rfl
  rw [Arena.get, h2, newNode_slotAt]
  rw [if_neg (by omega), if_pos rfl]

/-- Non-file nodes built from entries carry no size. -/
theorem ofEntry_size_none (e : Entry) (h : (Node.ofEntry e).kind ≠ NodeKind.file) :
    (Node.ofEntry e).file_size = none := by
  rw [Node.ofEntry] at h ⊢
  simp only at h ⊢
  rw [if_neg h]

/-- The non-file-size invariant survives an extension by an entry node. -/
theorem newNode_size_inv (t : Arena) (e : Entry)
    (h : ∀ id, (t.get id).kind ≠ NodeKind.file → (t.get id).file_size = none) :
    ∀ id, ((t.newNode (Node.ofEntry e)).1.get id).kind ≠ NodeKind.file →
      ((t.newNode (Node.ofEntry e)).1.get id).file_size = none := by
  intro id
  rw [Arena.get, newNode_slotAt]
  by_cases h1 : id < t.slots.length
  · rw [if_pos h1]
    exact h id
  · rw [if_neg h1]
    by_cases h2 : id = t.slots.length
    · rw [if_pos h2]
      exact ofEntry_size_none e
    · rw [if_neg h2]
      intro _
      rfl

/-- One successful consumer step preserves the shape invariant. -/
theorem consumeStep_inv (st st2 : CState) (e : Entry)
    (hInv : ConsumeInv st) (h : consumeStep st e = Except.ok st2) : ConsumeInv st2 := by
  obtain ⟨I1, I2, I3, I4⟩ := hInv
  simp only [consumeStep] at h
  set s1 := ensureDirBranch st (Node.ofEntry e) with hs1
  have e1 : s1.tree = st.tree := ensureDirBranch_tree _ _
  have e4 : s1.rootId = st.rootId := ensureDirBranch_rootId _ _
  have e3 : (branchesKeys s1.branches).Nodup := by
    rw [hs1, ensureDirBranch]
    split
    · exact nodup_keys_branchesInsert _ _ _ I3
    · exact I3
  split at h
  case isTrue hroot =>
    cases h
    refine ⟨?_, ?_, e3, ?_⟩
    · intro id
      exact newNode_kids_inv s1.tree (Node.ofEntry e) (by rw [e1]; exact I1) id
    · intro id
      exact newNode_size_inv s1.tree e (by rw [e1]; exact I2) id
    · intro r hr
      have hr' : r = (s1.tree.newNode (Node.ofEntry e)).2 := by
        injection hr with hr'
        exact hr'.symm
      subst hr'
      rw [newNode_get_self]
      exact hroot.1
  case isFalse hroot =>
    cases hd : dedupInode s1 (Node.ofEntry e) with
    | none =>
      rw [hd] at h
      injection h with h'
      subst h'
      exact ⟨by rw [e1]; exact I1, by rw [e1]; exact I2, e3, by rw [e4, e1]; exact I4⟩
    | some s' =>
      simp only [hd] at h
      obtain ⟨g1, g2, g3, _, _, _⟩ := dedupInode_some_idn 0 0 s1 s' (Node.ofEntry e) hd
      rw [attachToParent] at h
      split at h
      case h_1 => cases h
      case h_2 parent hpp =>
        have htree : st2.tree = (s'.tree.newNode (Node.ofEntry e)).1 := by
          split at h <;> (cases h; rfl)
        have hroot2 : st2.rootId = s'.rootId := by
          split at h <;> (cases h; rfl)
        have hbr : (branchesKeys st2.branches).Nodup := by
          split at h
          case h_1 b hpush =>
            cases h
            show (branchesKeys b).Nodup
            rw [branchesPush_keys hpush, g2]
            exact e3
          case h_2 hpush =>
            cases h
            show (branchesKeys (branchesInsert s'.branches parent [])).Nodup
            refine nodup_keys_branchesInsert _ _ _ ?_
            rw [g2]
            exact e3
        refine ⟨?_, ?_, hbr, ?_⟩
        · intro id
          rw [htree]
          exact newNode_kids_inv s'.tree (Node.ofEntry e) (by rw [g1, e1]; exact I1) id
        · intro id
          rw [htree]
          exact newNode_size_inv s'.tree e (by rw [g1, e1]; exact I2) id
        · intro r hr
          rw [hroot2, g3, e4] at hr
          have hdir := I4 r hr
          have hlt : r < st.tree.slots.length := lt_length_of_is_dir st.tree r hdir
          rw [htree, newNode_get_lt s'.tree (Node.ofEntry e) r (by rw [g1, e1]; exact hlt)]
          rw [g1, e1]
          exact hdir

/-- The consumer loop preserves the shape invariant. -/
theorem consumeLoop_inv :
    ∀ (msgs : List Entry) (st st' : CState),
      ConsumeInv st → consumeLoop st msgs = Except.ok st' → ConsumeInv st' := by
  intro msgs
  induction msgs with
  | nil =>
    intro st st' hInv h
    simp only [consumeLoop] at h
    injection h with h'
    subst h'
    exact hInv
  | cons e rest ih =>
    intro st st' hInv h
    simp only [consumeLoop] at h
    cases hstep : consumeStep st e with
    | error err => rw [hstep] at h; cases h
    | ok st1 =>
      simp only [hstep] at h
      exact ih st1 st' (consumeStep_inv st st1 e hInv hstep) h

/-- The initial consumer state satisfies the shape invariant. -/
theorem consumeInv_init : ConsumeInv initState := by
  refine ⟨fun id => rfl, fun id h => rfl, List.nodup_nil, fun r hr => by cases hr⟩

/-- Every arena produced by collection plus assembly is locally
size-correct: directories satisfy `GoodDir`, non-directories have no child
links, and non-file non-directories carry no size. -/
theorem assembled_facts (sorter : Sorter) (msgs : List Entry) (T : Arena) (root : Nat)
    (hasm : assembledModel sorter msgs = some (T, root)) :
    (∀ id, (T.get id).is_dir = true → GoodDir T id) ∧
    (∀ id, ¬((T.get id).is_dir = true) → T.kidsOf id = []) ∧
    (∀ id, (T.get id).kind ≠ NodeKind.file → ¬((T.get id).is_dir = true) →
      (T.get id).file_size = none) := by
  rw [assembledModel] at hasm
  cases hloop : consumeLoop initState msgs with
  | error err => rw [hloop] at hasm; cases hasm
  | ok st =>
    simp only [hloop] at hasm
    obtain ⟨I1, I2, I3, I4⟩ := consumeLoop_inv msgs initState st consumeInv_init hloop
    cases hr : st.rootId with
    | none => rw [hr] at hasm; cases hasm
    | some r =>
      simp only [hr] at hasm
      cases hat : assembleTree sorter (st.branches.length + 1) st.tree r st.branches with
      | none => rw [hat] at hasm; cases hasm
      | some res =>
        obtain ⟨T0, bfin⟩ := res
        simp only [hat] at hasm
        injection hasm with hasm'
        rw [Prod.mk.injEq] at hasm'
        obtain ⟨hT, hroot⟩ := hasm'
        rw [hT] at hat
        rw [hroot] at hat hr
        obtain ⟨Step, _⟩ :=
          assembleTree_master sorter (st.branches.length + 1) st.tree root st.branches T bfin
            I3 (I4 root hr) hat
        have hkind : ∀ id, (T.get id).kind = (st.tree.get id).kind :=
          fun id => (Step.core id).2.2.1
        refine ⟨?_, ?_, ?_⟩
        · intro id hdir
          have hdir0 : (st.tree.get id).is_dir = true := by
            rw [← is_dir_congr (hkind id)]
            exact hdir
          have hnotfile : (st.tree.get id).kind ≠ NodeKind.file := by
            intro hf
            rw [Node.is_dir, hf] at hdir0
            cases hdir0
          rcases Step.good id with hg | hg
          · constructor
            · have hkids : T.kidsOf id = [] := by
                rw [Arena.kidsOf, hg]
                exact I1 id
              have hfs : (T.get id).file_size = none := by
                rw [Arena.get, hg]
                exact I2 id hnotfile
              rw [hkids, Arena.bytesOf, hfs]
              rfl
            · intro s hs
              rw [Arena.get, hg] at hs
              have h0 := I2 id hnotfile
              rw [Arena.get] at h0
              rw [h0] at hs
              cases hs
          · exact (hg ⟨I2 id hnotfile, I1 id⟩).1
        · intro id hnd
          have hnd0 : ¬ (st.tree.get id).is_dir = true := by
            rw [← is_dir_congr (hkind id)]
            exact hnd
          by_cases hch : T.slotAt id = st.tree.slotAt id
          · rw [Arena.kidsOf, hch]
            exact I1 id
          · obtain ⟨fd, _, _⟩ := Step.frame id hch
            exact absurd fd hnd0
        · intro id hnf hnd
          have hnd0 : ¬ (st.tree.get id).is_dir = true := by
            rw [← is_dir_congr (hkind id)]
            exact hnd
          by_cases hch : T.slotAt id = st.tree.slotAt id
          · rw [Arena.get, hch]
            apply I2
            rw [← hkind id]
            exact hnf
          · obtain ⟨fd, _, _⟩ := Step.frame id hch
            exact absurd fd hnd0

/-- Unfolding of the depth bound at positive fuel. -/
theorem boundedBy_succ (f : Nat) (T : Arena) (id : Nat) :
    boundedBy (f + 1) T id = (T.kidsOf id).all (boundedBy f T) := rfl

/-- A depth bound stays valid when the fuel grows. -/
theorem boundedBy_mono :
    ∀ (fuel : Nat) (T : Arena) (id : Nat),
      boundedBy fuel T id = true → boundedBy (fuel + 1) T id = true := by
  intro fuel
  induction fuel with
  | zero => intro T id h; cases h
  | succ f ih =>
    intro T id h
    rw [boundedBy_succ, List.all_eq_true] at h
    rw [boundedBy_succ, List.all_eq_true]
    intro k hk
    exact ih T k (h k hk)

/-- A depth bound for the root bounds every listed descendant. -/
theorem descend_mem_bounded :
    ∀ (fuel : Nat) (T : Arena) (root id : Nat),
      boundedBy fuel T root = true → id ∈ descend fuel T root →
      boundedBy fuel T id = true := by
  intro fuel
  induction fuel with
  | zero =>
    intro T root id _ hm
    simp [descend] at hm
  | succ f ih =>
    intro T root id hb hm
    simp only [descend] at hm
    rcases List.mem_cons.mp hm with he | hm
    · subst he
      exact hb
    · obtain ⟨l, hl, hidl⟩ := List.mem_flatten.mp hm
      obtain ⟨k, hk, hlk⟩ := List.mem_map.mp hl
      subst hlk
      have hbk : boundedBy f T k = true := by
        simp only [boundedBy, List.all_eq_true] at hb
        exact hb k hk
      exact boundedBy_mono f T id (ih T k id hbk hidl)

/-- A sum of naturals is positive exactly when some summand is. -/
theorem sum_pos_iff_exists (l : List Nat) : 0 < l.sum ↔ ∃ x ∈ l, 0 < x := by
  induction l with
  | nil => simp
  | cons a rest ih =>
    rw [List.sum_cons]
    constructor
    · intro h
      by_cases ha : 0 < a
      · exact ⟨a, List.mem_cons_self _ _, ha⟩
      · have hs : 0 < rest.sum := by omega
        obtain ⟨x, hx, hxp⟩ := ih.mp hs
        exact ⟨x, List.mem_cons_of_mem _ hx, hxp⟩
    · rintro ⟨x, hx, hxp⟩
      rcases List.mem_cons.mp hx with he | hm
      · subst he
        omega
      · have := ih.mpr ⟨x, hm, hxp⟩
        omega

/-- On a locally size-correct arena, every stored byte count equals the
subtree's exact file sum. -/
theorem bytes_eq_fileSum :
    ∀ (fuel : Nat) (T : Arena) (id : Nat),
      (∀ j, (T.get j).is_dir = true → GoodDir T j) →
      (∀ j, ¬((T.get j).is_dir = true) → T.kidsOf j = []) →
      (∀ j, (T.get j).kind ≠ NodeKind.file → ¬((T.get j).is_dir = true) →
        (T.get j).file_size = none) →
      boundedBy fuel T id = true →
      T.bytesOf id = fileSum fuel T id := by
  intro fuel
  induction fuel with
  | zero => intro T id _ _ _ h; cases h
  | succ f ih =>
    intro T id hG hK hS hb
    rw [fileSum]
    by_cases hf : (T.get id).kind = NodeKind.file
    · rw [if_pos hf]
      rfl
    · rw [if_neg hf]
      by_cases hd : (T.get id).is_dir = true
      · obtain ⟨hsum, _⟩ := hG id hd
        rw [hsum]
        apply congrArg List.sum
        apply List.map_congr_left
        intro k hk
        apply ih T k hG hK hS
        simp only [boundedBy, List.all_eq_true] at hb
        exact hb k hk
      · rw [hK id hd, Arena.bytesOf, hS id hf hd]
        rfl

/-- On a locally size-correct arena, a subtree's file sum is positive
exactly when the subtree holds a file of positive size. -/
theorem fileSum_pos_iff :
    ∀ (fuel : Nat) (T : Arena) (id : Nat),
      (∀ j, (T.get j).is_dir = true → GoodDir T j) →
      (∀ j, ¬((T.get j).is_dir = true) → T.kidsOf j = []) →
      (∀ j, (T.get j).kind ≠ NodeKind.file → ¬((T.get j).is_dir = true) →
        (T.get j).file_size = none) →
      boundedBy fuel T id = true →
      (0 < fileSum fuel T id ↔
        ∃ j ∈ descend fuel T id, (T.get j).kind = NodeKind.file ∧ 0 < T.bytesOf j) := by
  intro fuel
  induction fuel with
  | zero => intro T id _ _ _ h; cases h
  | succ f ih =>
    intro T id hG hK hS hb
    have hbk : ∀ k ∈ T.kidsOf id, boundedBy f T k = true := by
      simp only [boundedBy, List.all_eq_true] at hb
      exact hb
    rw [fileSum]
    by_cases hf : (T.get id).kind = NodeKind.file
    · rw [if_pos hf]
      have hnd : ¬ (T.get id).is_dir = true := by
        rw [Node.is_dir, hf]
        simp
      constructor
      · intro h
        refine ⟨id, ?_, hf, ?_⟩
        · simp [descend]
        · rw [Arena.bytesOf]
          exact h
      · rintro ⟨j, hj, hjf, hjp⟩
        simp only [descend, hK id hnd] at hj
        simp at hj
        subst hj
        rw [Arena.bytesOf] at hjp
        exact hjp
    · rw [if_neg hf]
      rw [sum_pos_iff_exists]
      constructor
      · rintro ⟨x, hx, hxp⟩
        obtain ⟨k, hk, hkx⟩ := List.mem_map.mp hx
        subst hkx
        obtain ⟨j, hj, hjf, hjp⟩ := (ih T k hG hK hS (hbk k hk)).mp hxp
        refine ⟨j, ?_, hjf, hjp⟩
        simp only [descend]
        refine List.mem_cons_of_mem _ ?_
        exact List.mem_flatten.mpr ⟨descend f T k, List.mem_map.mpr ⟨k, hk, rfl⟩, hj⟩
      · rintro ⟨j, hj, hjf, hjp⟩
        simp only [descend] at hj
        rcases List.mem_cons.mp hj with he | hm
        · subst he
          exact absurd hjf hf
        · obtain ⟨l, hl, hjl⟩ := List.mem_flatten.mp hm
          obtain ⟨k, hk, hkl⟩ := List.mem_map.mp hl
          subst hkl
          refine ⟨fileSum f T k, List.mem_map.mpr ⟨k, hk, rfl⟩, ?_⟩
          exact (ih T k hG hK hS (hbk k hk)).mpr ⟨j, hjl, hjf, hjp⟩

/-- C3: after assembly completes, every directory node's aggregated byte
count (0 when unset) equals the exact sum of the sizes of all file
descendants in its subtree, and it is nonzero exactly when some file
descendant has nonzero size.  The `boundedBy` hypothesis supplies the fuel
bound for the subtree traversals. -/
theorem c3_assembled_sizes_correct (sorter : Sorter) (msgs : List Entry) (T : Arena)
    (root fuel : Nat)
    (hasm : assembledModel sorter msgs = some (T, root))
    (hb : boundedBy fuel T root = true) :
    ∀ id ∈ descend fuel T root, (T.get id).is_dir = true →
      T.bytesOf id = fileSum fuel T id ∧
      (0 < T.bytesOf id ↔
        ∃ j ∈ descend fuel T id, (T.get j).kind = NodeKind.file ∧ 0 < T.bytesOf j) := by
  obtain ⟨hG, hK, hS⟩ := assembled_facts sorter msgs T root hasm
  intro id hid _
  have hbid := descend_mem_bounded fuel T root id hb hid
  refine ⟨bytes_eq_fileSum fuel T id hG hK hS hbid, ?_⟩
  rw [bytes_eq_fileSum fuel T id hG hK hS hbid]
  exact fileSum_pos_iff fuel T id hG hK hS hbid

/-- C7: during assembly of a directory node, the node's size field receives
the children's running total exactly when that total is positive (otherwise
it is left unchanged); any size field that changes anywhere is a directory's
and receives a positive value; and no other field (path, depth, kind,
inode) of any node is modified by aggregation. -/
theorem c7_size_stamp_frame (sorter : Sorter) (fuel : Nat) (t : Arena) (c : Nat)
    (b : Branches) (t' : Arena) (b' : Branches)
    (hn : (branchesKeys b).Nodup) (hdir : (t.get c).is_dir = true)
    (h : assembleTree sorter fuel t c b = some (t', b')) :
    (∀ id, (t'.get id).path = (t.get id).path ∧ (t'.get id).depth = (t.get id).depth ∧
      (t'.get id).kind = (t.get id).kind ∧ (t'.get id).inode = (t.get id).inode) ∧
    (∀ id, (t'.get id).file_size ≠ (t.get id).file_size →
      (t.get id).is_dir = true ∧ ∃ s, 0 < s ∧ (t'.get id).file_size = some s) ∧
    (∃ children b1, branchesRemove b (t.get c).path = some (children, b1) ∧
      (t'.get c).file_size =
        (if 0 < (children.map t'.bytesOf).sum then some ((children.map t'.bytesOf).sum)
          else (t.get c).file_size)) := by
  obtain ⟨Step, Out⟩ := assembleTree_master sorter fuel t c b t' b' hn hdir h
  refine ⟨?_, ?_, ?_⟩
  · intro id
    obtain ⟨a1, a2, a3, a4, _⟩ := Step.core id
    exact ⟨a1, a2, a3, a4⟩
  · intro id hch
    constructor
    · have hslot : t'.slotAt id ≠ t.slotAt id := by
        intro he
        apply hch
        rw [Arena.get, Arena.get, he]
      exact (Step.frame id hslot).1
    · exact Step.stamp id hch
  · obtain ⟨children, b1, hrem, _, _, sorted, _, _, hfs⟩ := Out
    exact ⟨children, b1, hrem, hfs⟩

/-- Witness for C7 on `c7t`: the root's size is stamped with the positive
total 7 and nothing else changes. -/
theorem c7_witness :
    (∀ id, (c7tAfter.get id).path = (c7t.get id).path ∧
      (c7tAfter.get id).depth = (c7t.get id).depth ∧
      (c7tAfter.get id).kind = (c7t.get id).kind ∧
      (c7tAfter.get id).inode = (c7t.get id).inode) ∧
    (∀ id, (c7tAfter.get id).file_size ≠ (c7t.get id).file_size →
      (c7t.get id).is_dir = true ∧ ∃ s, 0 < s ∧ (c7tAfter.get id).file_size = some s) ∧
    (∃ children b1, branchesRemove [([0], [1])] (c7t.get 0).path = some (children, b1) ∧
      (c7tAfter.get 0).file_size =
        (if 0 < (children.map c7tAfter.bytesOf).sum
          then some ((children.map c7tAfter.bytesOf).sum)
          else (c7t.get 0).file_size)) :=
  c7_size_stamp_frame none 2 c7t 0 [([0], [1])] c7tAfter [] (by decide) (by decide) (by rfl)

/-- Witness for C3 on `c3msgs`: the root aggregates 15 bytes. -/
theorem c3_witness :
    assembledModel none c3msgs = some (c3T, 0) ∧
    (c3T.bytesOf 0 = fileSum 4 c3T 0 ∧
      (0 < c3T.bytesOf 0 ↔
        ∃ j ∈ descend 4 c3T 0, (c3T.get j).kind = NodeKind.file ∧ 0 < c3T.bytesOf j)) :=
  ⟨by rfl,
   c3_assembled_sizes_correct none c3msgs c3T 0 4 (by rfl) (by decide) 0 (by decide) (by decide)⟩

/-- Pointwise form of the depth-step check. -/
theorem depthStepOK_spec (T : Arena) (h : depthStepOK T = true) :
    ∀ a, ∀ k ∈ T.kidsOf a, (T.get k).depth = (T.get a).depth + 1 := by
  intro a k hk
  by_cases ha : a < T.slots.length
  · rw [depthStepOK, List.all_eq_true] at h
    have h1 := h a (List.mem_range.mpr ha)
    rw [List.all_eq_true] at h1
    have h2 := h1 k hk
    rw [decide_eq_true_eq] at h2
    exact h2
  · exfalso
    have hnil : T.kidsOf a = [] := by
      rw [Arena.kidsOf, Arena.slotAt, List.getD_eq_default _ _ (by omega)]
      rfl
    rw [hnil] at hk
    exact absurd hk (List.not_mem_nil k)

/-- In a depth-consistent arena, listed descendants are at least as deep as
their subtree's root. -/
theorem descend_depth_ge :
    ∀ (fuel : Nat) (T : Arena) (k id : Nat),
      (∀ a, ∀ j ∈ T.kidsOf a, (T.get j).depth = (T.get a).depth + 1) →
      id ∈ descend fuel T k → (T.get k).depth ≤ (T.get id).depth := by
  intro fuel
  induction fuel with
  | zero =>
    intro T k id _ hm
    simp [descend] at hm
  | succ f ih =>
    intro T k id hd hm
    simp only [descend] at hm
    rcases List.mem_cons.mp hm with he | hm
    · subst he
      exact le_refl _
    · obtain ⟨l, hl, hidl⟩ := List.mem_flatten.mp hm
      obtain ⟨j, hj, hjl⟩ := List.mem_map.mp hl
      subst hjl
      have h1 := hd k j hj
      have h2 := ih T j id hd hidl
      omega

/-- Membership in a non-root position of the pre-order listing. -/
theorem mem_descend_drop_one (fuel : Nat) (T : Arena) (root id : Nat)
    (hm : id ∈ descend fuel T root) (hne : id ≠ root) :
    id ∈ (descend fuel T root).drop 1 := by
  cases fuel with
  | zero => simp [descend] at hm
  | succ f =>
    simp only [descend] at hm ⊢
    rcases List.mem_cons.mp hm with he | hm
    · exact absurd he hne
    · simpa using hm

/-- C8, depth limiting: (1) every line the renderer emits is for a node
whose depth is within the limit; (2) every ancestor of an emitted node is
itself emitted; (3) with the limit unset (`level = usize::MAX`) every
visited node whose depth fits in `usize` is emitted.  Depth consistency of
parent/child links (the walker's contract) and a depth-0 root are assumed. -/
theorem c8_depth_limit_and_ancestors (T : Arena) (root : Nat) (fuel lim : Nat)
    (hdepth : depthStepOK T = true)
    (hroot0 : (T.get root).depth = 0) :
    (∀ id ∈ emittedIds fuel T root lim, (T.get id).depth ≤ lim) ∧
    (∀ a k d, a ∈ descend fuel T root → k ∈ T.kidsOf a → d ∈ descend fuel T k →
      d ∈ emittedIds fuel T root lim → a ∈ emittedIds fuel T root lim) ∧
    (∀ id ∈ descend fuel T root, (T.get id).depth < 2 ^ 64 →
      id ∈ emittedIds fuel T root (levelOf none)) := by
  have hd := depthStepOK_spec T hdepth
  refine ⟨?_, ?_, ?_⟩
  · intro id hm
    rw [emittedIds] at hm
    rcases List.mem_cons.mp hm with he | hm
    · subst he
      rw [hroot0]
      omega
    · have := (List.mem_filter.mp hm).2
      rw [decide_eq_true_eq] at this
      exact this
  · intro a k d hma hk hmd hde
    have hka : (T.get k).depth = (T.get a).depth + 1 := hd a k hk
    have hkd : (T.get k).depth ≤ (T.get d).depth := descend_depth_ge fuel T k d hd hmd
    have hdlim : (T.get a).depth < lim ∨ False := by
      rw [emittedIds] at hde
      rcases List.mem_cons.mp hde with he | hm
      · subst he
        rw [hroot0] at hkd
        omega
      · have h2 := (List.mem_filter.mp hm).2
        rw [decide_eq_true_eq] at h2
        left
        omega
    rcases hdlim with hdlim | hf
    · rw [emittedIds]
      by_cases hra : a = root
      · subst hra
        exact List.mem_cons_self _ _
      · refine List.mem_cons_of_mem _ ?_
        refine List.mem_filter.mpr ⟨mem_descend_drop_one fuel T root a hma hra, ?_⟩
        rw [decide_eq_true_eq]
        omega
    · exact absurd hf not_false
  · intro id hm hlt
    rw [emittedIds]
    by_cases hra : id = root
    · subst hra
      exact List.mem_cons_self _ _
    · refine List.mem_cons_of_mem _ ?_
      refine List.mem_filter.mpr ⟨mem_descend_drop_one fuel T root id hm hra, ?_⟩
      rw [decide_eq_true_eq, levelOf]
      simp only [Option.getD]
      omega

/-- Witness for C8 on the assembled `c3T` with depth limit 1: the 2-deep
file is suppressed, its ancestors are kept. -/
theorem c8_witness :
    (∀ id ∈ emittedIds 4 c3T 0 1, (c3T.get id).depth ≤ 1) ∧
    (∀ a k d, a ∈ descend 4 c3T 0 → k ∈ c3T.kidsOf a → d ∈ descend 4 c3T k →
      d ∈ emittedIds 4 c3T 0 1 → a ∈ emittedIds 4 c3T 0 1) ∧
    (∀ id ∈ descend 4 c3T 0, (c3T.get id).depth < 2 ^ 64 →
      id ∈ emittedIds 4 c3T 0 (levelOf none)) :=
  c8_depth_limit_and_ancestors c3T 0 4 1 (by decide) (by decide)

end Erdtree
